import Mathlib

/-
  Verification development for scripts/create_super_alignments.py.

  The Python program builds a concatenated multi-gene super-alignment,
  computes a pairwise identity matrix over the taxa, and removes
  near-duplicate genomes.  The definitions below are a shallow embedding
  of the core functions of that script:

  * `calc_identity`            (script lines 122-142)
  * `calc_identity_matrix`     (script lines 144-172, as the state machine
                                `matOuter`: the pandas DataFrame is a
                                function `Name → Name → Option ℚ`, the
                                null check `matrix.isnull()` is the `none`
                                test, and the `log` records every call to
                                the identity calculator)
  * `retireve_genomes_names`   (script lines 174-185)
  * `create_super_alignment`   (script lines 187-244; file reading is at
                                the embedding boundary, so the function
                                takes the sorted list of files with their
                                parsed contents; the function is partial
                                in Python - an empty gene alignment raises
                                before `current_position` is updated - so
                                the embedding returns `Option`)
  * the partition text encode  (script line 240) and the decode in
    `remove_close_genomes`     (script lines 291-297)
  * `remove_close_genomes`     (script lines 246-308, split into the
                                curated assembly groups, the threshold
                                loop over the matrix, the reduced-record
                                filter and the per-gene re-slicing)

  Python strings are `List Char`; Python `dict`s keyed by strings are
  either functions `List Char → Option β` or association lists
  (`updateAssoc` mirrors `d[k] = v`: replace in place or append).
  Python `float` arithmetic on identity scores is modelled exactly by `ℚ`.
  Division by zero and out-of-range indexing raise in Python, so the
  embedded computations return `none` in exactly those situations.
-/

namespace SuperAlign

/-- Taxon name: a Python string. -/
abbrev Name := List Char

/-- An aligned sequence: a Python string over the alignment alphabet. -/
abbrev Sq := List Char

/-- A gene-alignment file path. -/
abbrev FileName := List Char

/-- Python dict assignment `d[k] = v` for a dict kept as an association
list: replace the value in place if the key exists, otherwise append. -/
def updateAssoc {β : Type} : List (List Char × β) → List Char → β → List (List Char × β)
  | [], k, v => [(k, v)]
  | (k', v') :: rest, k, v =>
    if k' = k then (k, v) :: rest else (k', v') :: updateAssoc rest k v

/-- Python dict lookup `d[k]` (first matching key). -/
def lookupAssoc {β : Type} : List (List Char × β) → List Char → Option β
  | [], _ => none
  | (k', v') :: rest, k => if k' = k then some v' else lookupAssoc rest k

/-- Python dict assignment for a dict kept as a function. -/
def dictSet {β : Type} (f : List Char → Option β) (k : List Char) (v : β) :
    List Char → Option β :=
  fun n => if n = k then some v else f n

/-- Python slice `s[a:b]` for `0 ≤ a ≤ b` (clamped at the end of `s`). -/
def pySlice (s : List Char) (a b : Nat) : List Char := (s.drop a).take (b - a)

/-- The string `'-'*n`. -/
def gapRun (n : Nat) : List Char := List.replicate n '-'

/-- `s.count('-')`: number of gap characters in a sequence. -/
def countGaps (s : Sq) : Nat := s.count '-'

/-- One iteration of the partition loop of `calc_identity`
(script lines 127-140).  The accumulator is `(score, overall_length)`;
`overall_length` is an `Int` because Python's subtraction does not
truncate.  The positional loop indexes both sub-slices, which raises
`IndexError` in Python when a partition reaches past the end of a
sequence; that failure is the `none` result. -/
def calcPartStep (seq1 seq2 : Sq) (acc : Nat × Int) (p : Nat × Nat) :
    Option (Nat × Int) :=
  let length := p.2 - p.1
  let sub1 := pySlice seq1 p.1 p.2
  let sub2 := pySlice seq2 p.1 p.2
  if sub1 = gapRun length ∨ sub2 = gapRun length then
    some (acc.1, acc.2 - (length : Int))
  else if length ≤ sub1.length ∧ length ≤ sub2.length then
    some ((List.range length).foldl
      (fun a i =>
        if sub1.getD i ' ' = sub2.getD i ' ' then
          if sub1.getD i ' ' = '-' then (a.1, a.2 - 1) else (a.1 + 1, a.2)
        else a)
      acc)
  else none

/-- The full partition loop of `calc_identity`, threading the
`(score, overall_length)` accumulator. -/
def calcFold (seq1 seq2 : Sq) : List (Nat × Nat) → Nat × Int → Option (Nat × Int)
  | [], acc => some acc
  | p :: rest, acc =>
    match calcPartStep seq1 seq2 acc p with
    | none => none
    | some acc' => calcFold seq1 seq2 rest acc'

/-- `calc_identity(seq1, seq2, partitions)` (script lines 122-142).
Returns `none` exactly when the Python function raises: a final division
by zero (`score/overall_length` with `overall_length == 0`) or an
`IndexError` inside a partition. -/
def calc_identity (seq1 seq2 : Sq) (partitions : List (Nat × Nat)) : Option ℚ :=
  match calcFold seq1 seq2 partitions (0, (seq1.length : Int)) with
  | none => none
  | some (score, overall) =>
    if overall = 0 then none else some ((score : ℚ) / (overall : ℚ))

/-- The duplicate threshold `0.99` of the script, built directly in
lowest terms so that comparisons against it reduce in the kernel. -/
def identityThreshold : ℚ := ⟨99, 100, by norm_num, by norm_num⟩

/-- State of the `calc_identity_matrix` double loop: the DataFrame (all
cells start as NaN, i.e. `none`) and a log of every invocation of
`calc_identity`, recorded as the `(name1, name2)` pair it was called at. -/
structure MatState where
  m : Name → Name → Option ℚ
  log : List (Name × Name)

/-- `matrix.at[a, b] = v` on the function-backed DataFrame. -/
def updCell (f : Name → Name → Option ℚ) (a b : Name) (v : ℚ) :
    Name → Name → Option ℚ :=
  fun x y => if x = a ∧ y = b then some v else f x y

/-- One inner-loop iteration of `calc_identity_matrix`
(script lines 160-168): skip the diagonal check, test
`matrix.isnull().loc[name1, name2]`, call `calc_identity` when the cell
is still null and write the result into both symmetric cells, or set the
diagonal cell to 1.  `none` models an exception escaping from
`calc_identity`. -/
def matStep (parts : List (Nat × Nat)) (n1 : Name) (s1 : Sq) (st : MatState)
    (p : Name × Sq) : Option MatState :=
  if n1 ≠ p.1 then
    if st.m n1 p.1 = none then
      match calc_identity s1 p.2 parts with
      | none => none
      | some v =>
        some ⟨updCell (updCell st.m n1 p.1 v) p.1 n1 v, st.log ++ [(n1, p.1)]⟩
    else some st
  else some ⟨updCell st.m n1 n1 1, st.log⟩

/-- The inner `for name2, seq2 in records.items()` loop. -/
def matInner (parts : List (Nat × Nat)) (n1 : Name) (s1 : Sq) :
    List (Name × Sq) → MatState → Option MatState
  | [], st => some st
  | p :: rest, st =>
    match matStep parts n1 s1 st p with
    | none => none
    | some st' => matInner parts n1 s1 rest st'

/-- The outer `for name1, seq1 in records.items()` loop. -/
def matOuter (parts : List (Nat × Nat)) (records : List (Name × Sq)) :
    List (Name × Sq) → MatState → Option MatState
  | [], st => some st
  | p :: rest, st =>
    match matInner parts p.1 p.2 records st with
    | none => none
    | some st' => matOuter parts records rest st'

/-- `calc_identity_matrix(folder, records)` (script lines 144-172): the
double loop over `records.items()` starting from the all-null matrix.
The records dict is the association list `records`; the partitions read
from `partitions.txt` are the parameter `parts`. -/
def calc_identity_matrix (records : List (Name × Sq))
    (parts : List (Nat × Nat)) : Option MatState :=
  matOuter parts records records ⟨fun _ _ => none, []⟩

/-- The loop invariants of the matrix-filling double loop: off-diagonal
cells are symmetric, diagonal cells only ever hold 1, the invocation log
holds only off-diagonal pairs, and for every unordered off-diagonal pair
the number of logged `calc_identity` invocations is 0 while its cells
are null and 1 once they are filled. -/
def MatInv (st : MatState) : Prop :=
  (∀ a b : Name, a ≠ b → st.m a b = st.m b a) ∧
  (∀ a : Name, st.m a a = none ∨ st.m a a = some 1) ∧
  (∀ e ∈ st.log, e.1 ≠ e.2) ∧
  (∀ a b : Name, a ≠ b →
    st.log.count (a, b) + st.log.count (b, a) =
      if st.m a b = none then 0 else 1)

/-- Inner loop of `retireve_genomes_names` (script lines 181-183): add
every name of one alignment to the accumulated registry, skipping names
already present (Python dict keys, kept in insertion order). -/
def addNames : List Name → List (Name × Sq) → List Name
  | acc, [] => acc
  | acc, p :: rest => addNames (if p.1 ∈ acc then acc else acc ++ [p.1]) rest

/-- Outer loop of `retireve_genomes_names` over the files. -/
def retireveAux : List Name → List (FileName × List (Name × Sq)) → List Name
  | acc, [] => acc
  | acc, fa :: rest => retireveAux (addNames acc fa.2) rest

/-- `retireve_genomes_names(files)` (script lines 174-185): the global
taxon registry, i.e. the union of all taxon names over all gene
alignments, in first-occurrence order. -/
def retireve_genomes_names (files : List (FileName × List (Name × Sq))) :
    List Name :=
  retireveAux [] files

/-- State of the `create_super_alignment` main loop: the growing
`super_alignment` dict, the `list_taxa` presence flags, the `partitions`
dict (an insertion-ordered association list) and `current_position`. -/
structure SAState where
  superA : Name → Option Sq
  flags : Name → Bool
  parts : List (FileName × (Nat × Nat))
  curPos : Nat

/-- Body of `for name, seq in alignment.items()` (script lines 208-215):
set `length`, write `partitions[file]`, append the sequence to the
taxon's growing super-sequence and mark the taxon as seen. -/
def saStep (file : FileName) (p : Name × Sq) (st : SAState) : SAState :=
  { st with
    parts := updateAssoc st.parts file (st.curPos, st.curPos + p.2.length)
    superA := dictSet st.superA p.1 (((st.superA p.1).getD []) ++ p.2)
    flags := fun n => if n = p.1 then true else st.flags n }

/-- The per-name inner loop of `create_super_alignment`, threading the
last value of the Python variable `length` (`none` before the first
iteration, when the variable is still unbound). -/
def procNames (file : FileName) :
    List (Name × Sq) → SAState → Option Nat → SAState × Option Nat
  | [], st, len => (st, len)
  | p :: rest, st, _ => procNames file rest (saStep file p st) (some p.2.length)

/-- Body of `for key, item in list_taxa.items()` (script lines 217-221):
ensure the key exists in `super_alignment`, then append `'-'*length` for
taxa absent from the current gene alignment. -/
def gapFillStep (len : Nat) (key : Name) (st : SAState) : SAState :=
  let st1 :=
    if st.superA key = none then
      { st with superA := dictSet st.superA key [] }
    else st
  if st1.flags key = false then
    { st1 with
      superA := dictSet st1.superA key
        (((st1.superA key).getD []) ++ List.replicate len '-') }
  else st1

/-- The gap-filling loop over the registry keys. -/
def gapFill (len : Nat) : List Name → SAState → SAState
  | [], st => st
  | k :: rest, st => gapFill len rest (gapFillStep len k st)

/-- The `for file in files` loop of `create_super_alignment`
(script lines 201-223).  A gene alignment with zero taxa makes the
Python function raise (`length` unbound on the first file, and
`partitions[file]` a `KeyError` on every such file), hence `none`. -/
def saLoop (registry : List Name) :
    List (FileName × List (Name × Sq)) → SAState → Option SAState
  | [], st => some st
  | (file, al) :: rest, st =>
    let pr := procNames file al { st with flags := fun _ => false } none
    match pr.2 with
    | none => none
    | some len =>
      let st2 := gapFill len registry pr.1
      match lookupAssoc st2.parts file with
      | none => none
      | some p => saLoop registry rest { st2 with curPos := p.2 }

/-- `create_super_alignment(folder, target_folder)` (script lines
187-244), with file discovery and parsing at the embedding boundary:
the argument is the sorted list of `.afa` files with their parsed
contents.  Returns the `super_alignment` dict and the `partitions`
dict in insertion order. -/
def create_super_alignment (files : List (FileName × List (Name × Sq))) :
    Option ((Name → Option Sq) × List (FileName × (Nat × Nat))) :=
  (saLoop (retireve_genomes_names files) files
      ⟨fun _ => none, fun _ => false, [], 0⟩).map
    (fun st => (st.superA, st.parts))

/-- The alignment width of one gene alignment: the common length of its
sequences (0 for the degenerate empty alignment). -/
def widthOf (al : List (Name × Sq)) : Nat :=
  match al with
  | [] => 0
  | p :: _ => p.2.length

/-- All sequences of a gene alignment have the same width. -/
def equalWidths (al : List (Name × Sq)) : Prop :=
  ∀ p ∈ al, p.2.length = widthOf al

/-- The sum of all gene-alignment widths. -/
def totalWidth (files : List (FileName × List (Name × Sq))) : Nat :=
  (files.map (fun fa => widthOf fa.2)).sum

/-- The expected partition list: consecutive half-open intervals starting
at `c`, one per file, each of the file's width. -/
def partsFrom (c : Nat) :
    List (FileName × List (Name × Sq)) → List (FileName × (Nat × Nat))
  | [] => []
  | fa :: rest => (fa.1, (c, c + widthOf fa.2)) :: partsFrom (c + widthOf fa.2) rest

/-- Little-endian decimal digit characters of `n`, driven by explicit
fuel so that the definition is structurally recursive and reduces in the
kernel. -/
def natDigitsRev (fuel n : Nat) : List Char :=
  match fuel with
  | 0 => []
  | f + 1 => if n = 0 then [] else Nat.digitChar (n % 10) :: natDigitsRev f (n / 10)

/-- The decimal rendering of a natural number, exactly as a Python
f-string renders a nonnegative `int`. -/
def natToChars (n : Nat) : List Char :=
  if n = 0 then ['0'] else (natDigitsRev n n).reverse

/-- Python `int(s)` on a string of decimal digits. -/
def parseNat (s : List Char) : Nat :=
  s.foldl (fun a c => 10 * a + (c.toNat - 48)) 0

/-- Python `s.split(sep)` (leftmost, non-overlapping occurrences), with
fuel for structural recursion; `fuel ≥ s.length` gives the real result. -/
def splitOnSepF (sep : List Char) : Nat → List Char → List (List Char)
  | _, [] => [[]]
  | 0, l => [l]
  | fuel + 1, c :: rest =>
    if sep ≠ [] ∧ sep.isPrefixOf (c :: rest) then
      [] :: splitOnSepF sep fuel ((c :: rest).drop sep.length)
    else
      match splitOnSepF sep fuel rest with
      | [] => [[c]]
      | h :: t => (c :: h) :: t

/-- Python `s.split(sep)` for a nonempty separator. -/
def splitOnSep (sep l : List Char) : List (List Char) :=
  splitOnSepF sep l.length l

/-- Python `s.replace(pat, rep)` for a nonempty pattern, with fuel for
structural recursion. -/
def replaceAllF (pat rep : List Char) : Nat → List Char → List Char
  | _, [] => []
  | 0, l => l
  | fuel + 1, c :: rest =>
    if pat ≠ [] ∧ pat.isPrefixOf (c :: rest) then
      rep ++ replaceAllF pat rep fuel ((c :: rest).drop pat.length)
    else
      c :: replaceAllF pat rep fuel rest

/-- Python `s.replace(pat, rep)` for a nonempty pattern. -/
def replaceAll (pat rep l : List Char) : List Char :=
  replaceAllF pat rep l.length l

/-- Python `s.strip()`: remove leading and trailing whitespace. -/
def stripChars (l : List Char) : List Char :=
  (((l.dropWhile Char.isWhitespace).reverse).dropWhile Char.isWhitespace).reverse

/-- The gene short name used in `partitions.txt`
(script line 240): `gene.split('/')[-1].replace('.fna.afa', '')`. -/
def shortNameOf (file : FileName) : List Char :=
  replaceAll ".fna.afa".toList [] ((splitOnSep ['/'] file).getLastD [])

/-- One line of `partitions.txt` as written by `create_super_alignment`
(script line 240): `DNA, <short-name> = <start+1>-<end>\n`. -/
def encodePartitionLine (file : FileName) (p : Nat × Nat) : List Char :=
  "DNA, ".toList ++ shortNameOf file ++ " = ".toList ++
    natToChars (p.1 + 1) ++ '-' :: natToChars p.2 ++ ['\n']

/-- The partition parser of `remove_close_genomes` (script lines
294-297): split the stripped line on `' = '`, take the last field, split
it on `'-'`, and store `[int(limit[0])-1, int(limit[1])]` under the gene
name (the second `', '`-field of the first `' = '`-field).  The bounds
are `Int` because Python's `int(...) - 1` may be negative. -/
def decodePartitionLine (line : List Char) : List Char × (Int × Int) :=
  let t := stripChars line
  let limit := splitOnSep ['-'] ((splitOnSep " = ".toList t).getLastD [])
  let gene := (splitOnSep ", ".toList ((splitOnSep " = ".toList t).getD 0 [])).getD 1 []
  (gene, ((parseNat (limit.getD 0 []) : Int) - 1, (parseNat (limit.getD 1 []) : Int)))

/-- The hard-coded curated merge groups of `remove_close_genomes`
(script line 250). -/
def assembly_groups : List (List Nat) := [[221, 244], [662, 656, 658], [218, 215, 224], [398, 342]]

/-- The taxon label `SRL<n>_assembly`. -/
def srlAssemblyName (n : Nat) : Name :=
  "SRL".toList ++ natToChars n ++ "_assembly".toList

/-- The members of the curated merge groups marked for removal (script
lines 251-255): every group member except the first-listed one. -/
def groupRemovals : List Name :=
  assembly_groups.foldl (fun acc a => acc ++ (a.drop 1).map srlAssemblyName) []

/-- The renamed label of a group's surviving member (script lines
253-257): `SRL<first>` followed by `_<id>` for every further member,
then `_assembly`. -/
def renameTarget (a : List Nat) : Name :=
  match a with
  | [] => []
  | a0 :: rest =>
    "SRL".toList ++ natToChars a0 ++
      (rest.foldl (fun s it => s ++ '_' :: natToChars it) []) ++ "_assembly".toList

/-- The `rename` dict of `remove_close_genomes`: survivor label →
merged label. -/
def renameAssoc : List (Name × Name) :=
  assembly_groups.map (fun a => (srlAssemblyName (a.headD 0), renameTarget a))

/-- Python's substring containment `pat in s`: `pat` occurs contiguously
in `s`. -/
def containsSub (pat : List Char) : List Char → Bool
  | [] => pat.isEmpty
  | c :: rest => pat.isPrefixOf (c :: rest) || containsSub pat rest

/-- `any('assembly' in name for name in [...])`, per name: the substring
test of script line 267. -/
def hasAssembly (n : Name) : Bool := containsSub "assembly".toList n

/-- The keep/drop decision of one near-duplicate pair (script lines
269-275): `string1` is the inner taxon's sequence, `string2` the outer
taxon's; when `string1.count('-') >= string2.count('-')` the outer taxon
`col` is appended to the removal list, otherwise the inner taxon `idx`. -/
def pairRemoval (align : Name → Sq) (col idx : Name) : Name :=
  if countGaps (align idx) ≥ countGaps (align col) then col else idx

/-- The inner `for idx in matrix.index.to_list()[tmp:]` loop of the
threshold channel (script lines 265-275). -/
def innerRemoval (idf : Name → Name → ℚ) (align : Name → Sq) (col : Name) :
    List Name → List Name
  | [] => []
  | idx :: rest =>
    (if col ≠ idx ∧ idf col idx ≥ identityThreshold ∧
        ¬(hasAssembly col = true ∨ hasAssembly idx = true) then
      [pairRemoval align col idx]
    else []) ++ innerRemoval idf align col rest

/-- The outer `for col in matrix.columns` loop with the `tmp` cursor
(script lines 263-276). -/
def removeLoop (idf : Name → Name → ℚ) (align : Name → Sq)
    (allNames : List Name) : List Name → Nat → List Name
  | [], _ => []
  | col :: cols, tmp =>
    innerRemoval idf align col (allNames.drop tmp) ++
      removeLoop idf align allNames cols (tmp + 1)

/-- The full `to_be_removed` list of `remove_close_genomes` (script
lines 248-276): the curated-group removals followed by the
threshold-channel removals.  `idf` is the identity matrix read from
`identity_matrix.tsv` (`matrix.at[col, idx]`), `align` the
super-alignment read from `superalignment.fna`, and `names` the
row/column labels of the matrix. -/
def remove_close_genomes_removals (idf : Name → Name → ℚ)
    (align : Name → Sq) (names : List Name) : List Name :=
  groupRemovals ++ removeLoop idf align names names 0

/-- The survivor label of a taxon: renamed when it is a key of the
`rename` dict (script lines 281-283). -/
def applyRename (ren : List (Name × Name)) (n : Name) : Name :=
  (lookupAssoc ren n).getD n

/-- The records written to `superalignment_reduced.fna` (script lines
278-287): all records whose name is not marked for removal, with the
survivor renames applied to the record ids. -/
def reducedRecords (align : List (Name × Sq)) (toRemove : List Name)
    (ren : List (Name × Name)) : List (Name × Sq) :=
  align.filterMap
    (fun p => if p.1 ∈ toRemove then none else some (applyRename ren p.1, p.2))

/-- The records written to one gene's output file (script lines
302-308): every record of the reduced alignment whose slice for the
gene's partition is not entirely gap characters, with the slice as its
sequence. -/
def geneFileRecords (align : List (Name × Sq)) (a b : Nat) :
    List (Name × Sq) :=
  align.filterMap
    (fun p =>
      let sl := pySlice p.2 a b
      if sl = List.replicate sl.length '-' then none else some (p.1, sl))

/-- The two-gene scenario input: gene1 of width 4 with taxa `A`, `B`,
gene2 of width 3 with taxon `A` only. -/
def scenarioFiles : List (FileName × List (Name × Sq)) :=
  [("gene1.fna.afa".toList,
      [("A".toList, "ACGT".toList), ("B".toList, "ACGA".toList)]),
   ("gene2.fna.afa".toList, [("A".toList, "TTT".toList)])]

/-- Identity matrix for the near-duplicate scenario: every pair at
`0.995`. -/
def scenarioIdf : Name → Name → ℚ := fun _ _ => ⟨199, 200, by norm_num, by norm_num⟩

/-- Super-alignment for the near-duplicate scenario: taxon `X` has 10
gap characters, taxon `Y` has 25, both sequences of length 30. -/
def scenarioAlign : Name → Sq := fun n =>
  if n = "Y".toList then List.replicate 5 'A' ++ List.replicate 25 '-'
  else List.replicate 20 'A' ++ List.replicate 10 '-'

/-- Taxon labels of the near-duplicate scenario. -/
def scenarioNames : List Name := ["X".toList, "Y".toList]

end SuperAlign


namespace SuperAlign

/- Helper lemmas about the threshold and the resolver loops. -/

theorem identityThreshold_eq : identityThreshold = 99 / 100 := by
  show Rat.mk' 99 100 _ _ = _
  rw [Rat.mk'_eq_divInt, Rat.divInt_eq_div]; norm_num

theorem pairRemoval_mem (align : Name → Sq) (col idx : Name) :
    pairRemoval align col idx = col ∨ pairRemoval align col idx = idx := by
  unfold pairRemoval
  split <;> simp

theorem innerRemoval_no_assembly (idf : Name → Name → ℚ) (align : Name → Sq)
    (col : Name) (l : List Name) (z : Name)
    (hz : z ∈ innerRemoval idf align col l) : hasAssembly z = false := by
  induction l with
  | nil => simp [innerRemoval] at hz
  | cons idx rest ih =>
    rw [innerRemoval] at hz
    rcases List.mem_append.1 hz with h | h
    · split at h
      · rename_i hcond
        have hz' : z = pairRemoval align col idx := by simpa using h
        have hna := hcond.2.2
        rcases pairRemoval_mem align col idx with hc | hc <;>
          · rw [hz', hc]
            cases hA : hasAssembly col <;> cases hB : hasAssembly idx <;>
              simp_all
      · simp at h
    · exact ih h

theorem removeLoop_no_assembly (idf : Name → Name → ℚ) (align : Name → Sq)
    (allNames : List Name) (cols : List Name) (tmp : Nat) (z : Name)
    (hz : z ∈ removeLoop idf align allNames cols tmp) :
    hasAssembly z = false := by
  induction cols generalizing tmp with
  | nil => simp [removeLoop] at hz
  | cons col cols ih =>
    rw [removeLoop] at hz
    rcases List.mem_append.1 hz with h | h
    · exact innerRemoval_no_assembly idf align col _ z h
    · exact ih _ h

theorem innerRemoval_mem (idf : Name → Name → ℚ) (align : Name → Sq)
    (col : Name) (l : List Name) (idx : Name) (hidx : idx ∈ l)
    (hcond : col ≠ idx ∧ idf col idx ≥ identityThreshold ∧
      ¬(hasAssembly col = true ∨ hasAssembly idx = true)) :
    pairRemoval align col idx ∈ innerRemoval idf align col l := by
  induction l with
  | nil => simp at hidx
  | cons a rest ih =>
    rw [innerRemoval]
    rcases List.mem_cons.1 hidx with h | h
    · subst h
      rw [if_pos hcond]
      exact List.mem_append_left _ (List.mem_singleton.2 rfl)
    · exact List.mem_append_right _ (ih h)

theorem removeLoop_mem (idf : Name → Name → ℚ) (align : Name → Sq)
    (allNames : List Name) (cols : List Name) (tmp i : Nat) (col z : Name)
    (hcol : cols[i]? = some col)
    (hz : z ∈ innerRemoval idf align col (allNames.drop (tmp + i))) :
    z ∈ removeLoop idf align allNames cols tmp := by
  induction cols generalizing tmp i with
  | nil => simp at hcol
  | cons c cs ih =>
    rw [removeLoop]
    match i with
    | 0 =>
      simp only [List.getElem?_cons_zero, Option.some.injEq] at hcol
      subst hcol
      exact List.mem_append_left _ (by simpa using hz)
    | i' + 1 =>
      simp only [List.getElem?_cons_succ] at hcol
      refine List.mem_append_right _ (ih (tmp + 1) i' hcol ?_)
      have : tmp + 1 + i' = tmp + (i' + 1) := by omega
      rw [this]
      exact hz

end SuperAlign

namespace SuperAlign

/-- C3: whenever the `(score, overall_length)` loop of `calc_identity`
ends with denominator 0 on equal-length sequences, `calc_identity` fails
(Python raises `ZeroDivisionError` at `score/overall_length`) instead of
returning a value. -/
theorem calc_identity_denominator_zero_fails (seq1 seq2 : Sq)
    (partitions : List (Nat × Nat)) (score : Nat)
    (hlen : seq1.length = seq2.length)
    (hfold : calcFold seq1 seq2 partitions (0, (seq1.length : Int))
      = some (score, 0)) :
    calc_identity seq1 seq2 partitions = none := by
  unfold calc_identity
  rw [hfold]
  simp

/-- Witness for C3: on `seq1 = seq2 = "-"` with the single partition
`(0,1)` the loop ends with denominator 0 and `calc_identity` fails. -/
theorem calc_identity_denominator_zero_fails_witness :
    "-".toList.length = "-".toList.length ∧
      calcFold "-".toList "-".toList [(0, 1)] (0, ("-".toList.length : Int))
        = some (0, 0) ∧
      calc_identity "-".toList "-".toList [(0, 1)] = none :=
  ⟨rfl, by decide,
    calc_identity_denominator_zero_fails "-".toList "-".toList [(0, 1)] 0
      rfl (by decide)⟩

/-- C2: on the two-gene scenario input, the assembler produces
super-sequences `A = "ACGTTTT"` and `B = "ACGA---"` with partition
coordinates `[(0,4),(4,7)]`, and `calc_identity` on those two
super-sequences returns exactly `3/4`. -/
theorem scenario_super_alignment_and_identity :
    (create_super_alignment scenarioFiles).map
        (fun r => (r.1 "A".toList, r.1 "B".toList, r.2.map Prod.snd))
      = some (some "ACGTTTT".toList, some "ACGA---".toList, [(0, 4), (4, 7)]) ∧
    calc_identity "ACGTTTT".toList "ACGA---".toList [(0, 4), (4, 7)]
      = some (3 / 4) := by
  constructor
  · decide
  · have h : calcFold "ACGTTTT".toList "ACGA---".toList [(0, 4), (4, 7)]
        (0, ("ACGTTTT".toList.length : Int)) = some (3, 4) := by decide
    unfold calc_identity
    rw [h]
    norm_num

end SuperAlign

namespace SuperAlign

/-- C1 (failing input): in the spec scenario - identity 0.995 between
`X` and `Y`, `X` with 10 gap characters, `Y` with 25, neither name
containing `'assembly'` - `remove_close_genomes` adds `X` (the taxon
with the LOWER gap count) to the removal set and keeps `Y`, because the
comparison at script lines 272-275 reads `string1` from the inner taxon
and `string2` from the outer one and then removes the outer taxon when
`string1.count('-') >= string2.count('-')`.  The claim (and §4.5 of the
spec) says the opposite: `X` should be kept and `Y` dropped. -/
theorem threshold_removal_keeps_higher_gap_taxon :
    countGaps (scenarioAlign "X".toList) = 10 ∧
    countGaps (scenarioAlign "Y".toList) = 25 ∧
    scenarioIdf "X".toList "Y".toList ≥ identityThreshold ∧
    hasAssembly "X".toList = false ∧ hasAssembly "Y".toList = false ∧
    "X".toList ∈
      remove_close_genomes_removals scenarioIdf scenarioAlign scenarioNames ∧
    "Y".toList ∉
      remove_close_genomes_removals scenarioIdf scenarioAlign scenarioNames := by
  decide

/-- Every name in the curated-group removal list contains the
`'assembly'` marker. -/
theorem groupRemovals_assembly : ∀ z ∈ groupRemovals, hasAssembly z = true := by
  decide

/-- Inverse characterization of the inner threshold loop: every removed
name comes from some candidate pair of the visited slice. -/
theorem innerRemoval_mem_inv (idf : Name → Name → ℚ) (align : Name → Sq)
    (col : Name) (l : List Name) (z : Name)
    (hz : z ∈ innerRemoval idf align col l) :
    ∃ idx ∈ l, (col ≠ idx ∧ idf col idx ≥ identityThreshold ∧
      ¬(hasAssembly col = true ∨ hasAssembly idx = true)) ∧
      z = pairRemoval align col idx := by
  induction l with
  | nil => simp [innerRemoval] at hz
  | cons a rest ih =>
    rw [innerRemoval] at hz
    rcases List.mem_append.1 hz with h | h
    · split at h
      · rename_i hcond
        exact ⟨a, List.mem_cons_self a rest, hcond, by simpa using h⟩
      · simp at h
    · obtain ⟨idx, hidx, hc, he⟩ := ih h
      exact ⟨idx, List.mem_cons_of_mem a hidx, hc, he⟩

/-- Inverse characterization of the outer threshold loop: every removed
name comes from a candidate pair `(col, idx)` where `col` sits at some
position `k` of the column list and `idx` in the matching tail slice of
the row labels. -/
theorem removeLoop_mem_inv (idf : Name → Name → ℚ) (align : Name → Sq)
    (allNames : List Name) (cols : List Name) (tmp : Nat) (z : Name)
    (hz : z ∈ removeLoop idf align allNames cols tmp) :
    ∃ k col, cols[k]? = some col ∧
      ∃ idx ∈ allNames.drop (tmp + k),
        (col ≠ idx ∧ idf col idx ≥ identityThreshold ∧
          ¬(hasAssembly col = true ∨ hasAssembly idx = true)) ∧
        z = pairRemoval align col idx := by
  induction cols generalizing tmp with
  | nil => simp [removeLoop] at hz
  | cons c cs ih =>
    rw [removeLoop] at hz
    rcases List.mem_append.1 hz with h | h
    · obtain ⟨idx, hidx, hc, he⟩ := innerRemoval_mem_inv idf align c _ z h
      exact ⟨0, c, by simp, idx, by simpa using hidx, hc, he⟩
    · obtain ⟨k, col, hcol, idx, hidx, hc, he⟩ := ih (tmp + 1) h
      refine ⟨k + 1, col, by simpa using hcol, idx, ?_, hc, he⟩
      have : tmp + (k + 1) = tmp + 1 + k := by omega
      rw [this]
      exact hidx

/-- C10: for a candidate near-duplicate pair (identity at least 0.99,
neither name containing `'assembly'`) whose two taxa have exactly equal
gap counts, `remove_close_genomes` removes the taxon appearing earlier
in the matrix ordering (the outer column-loop taxon `X`) and, when the
matrix holds exactly this pair, keeps the later taxon `Y`. -/
theorem tie_on_gap_count_removes_earlier_taxon (idf : Name → Name → ℚ)
    (align : Name → Sq) (names : List Name) (i j : Nat) (X Y : Name)
    (hi : names[i]? = some X) (hj : names[j]? = some Y) (hij : i < j)
    (hne : X ≠ Y) (hidf : idf X Y ≥ identityThreshold)
    (hax : hasAssembly X = false) (hay : hasAssembly Y = false)
    (hg : countGaps (align X) = countGaps (align Y)) :
    X ∈ remove_close_genomes_removals idf align names ∧
      (names = [X, Y] → Y ∉ remove_close_genomes_removals idf align names) := by
  have hcond : X ≠ Y ∧ idf X Y ≥ identityThreshold ∧
      ¬(hasAssembly X = true ∨ hasAssembly Y = true) := by
    refine ⟨hne, hidf, ?_⟩
    simp [hax, hay]
  have hpr : pairRemoval align X Y = X := by
    unfold pairRemoval
    have hge : countGaps (align Y) ≥ countGaps (align X) := ge_of_eq hg.symm
    rw [if_pos hge]
  constructor
  · have hYdrop : Y ∈ names.drop (0 + i) := by
      have hd : (names.drop (0 + i))[j - i]? = some Y := by
        rw [List.getElem?_drop]
        have : 0 + i + (j - i) = j := by omega
        rw [this]
        exact hj
      exact List.getElem?_mem hd
    have hz := innerRemoval_mem idf align X (names.drop (0 + i)) Y hYdrop hcond
    rw [hpr] at hz
    exact List.mem_append_right _
      (removeLoop_mem idf align names names 0 i X X hi hz)
  · intro hnames hmem
    subst hnames
    rcases List.mem_append.1 hmem with h | h
    · have hYassembly := groupRemovals_assembly Y h
      rw [hay] at hYassembly
      exact Bool.false_ne_true hYassembly
    · obtain ⟨k, col, hcol, idx, hidx, hc, he⟩ :=
        removeLoop_mem_inv idf align [X, Y] [X, Y] 0 Y h
      match k with
      | 0 =>
        simp only [List.getElem?_cons_zero, Option.some.injEq] at hcol
        subst hcol
        simp only [Nat.add_zero, List.drop_zero] at hidx
        rcases List.mem_cons.1 hidx with hx | hx
        · exact hc.1 hx.symm
        · have hxy : idx = Y := by simpa using hx
          subst hxy
          rw [hpr] at he
          exact hne he.symm
      | 1 =>
        simp only [List.getElem?_cons_succ, List.getElem?_cons_zero,
          Option.some.injEq] at hcol
        subst hcol
        have hxy : idx = Y := by simpa using hidx
        subst hxy
        exact hc.1 rfl
      | k + 2 => simp at hcol

end SuperAlign

namespace SuperAlign

/-- Witness for C10: two taxa with identity 1 and identical sequences
(equal gap counts); the earlier taxon `X` is removed and `Y` is kept. -/
theorem tie_on_gap_count_removes_earlier_taxon_witness :
    "X".toList ∈ remove_close_genomes_removals (fun _ _ => 1)
        (fun _ => "A-".toList) ["X".toList, "Y".toList] ∧
      (["X".toList, "Y".toList] = ["X".toList, "Y".toList] →
        "Y".toList ∉ remove_close_genomes_removals (fun _ _ => 1)
          (fun _ => "A-".toList) ["X".toList, "Y".toList]) :=
  tie_on_gap_count_removes_earlier_taxon (fun _ _ => 1) (fun _ => "A-".toList)
    ["X".toList, "Y".toList] 0 1 "X".toList "Y".toList
    (by decide) (by decide) (by decide) (by decide) (by decide)
    (by decide) (by decide) rfl

/-- C9: for every curated merge group, the first-listed member
`SRL<first>_assembly` is never in the removal set (for any identity
matrix, any alignment and any taxon labels, i.e. unconditionally on the
measured identities), its entry in the rename dict encodes the
identifiers of all merged members, and every other member of the group
is in the removal set. -/
theorem curated_groups_keep_first_and_remove_rest (g : List Nat)
    (hg : g ∈ assembly_groups) (g0 : Nat) (grest : List Nat)
    (hsplit : g = g0 :: grest) :
    (∀ (idf : Name → Name → ℚ) (align : Name → Sq) (names : List Name),
        srlAssemblyName g0 ∉ remove_close_genomes_removals idf align names) ∧
      (∀ m ∈ grest, ∀ (idf : Name → Name → ℚ) (align : Name → Sq)
          (names : List Name),
        srlAssemblyName m ∈ remove_close_genomes_removals idf align names) ∧
      (∃ r, lookupAssoc renameAssoc (srlAssemblyName g0) = some r ∧
        ∀ m ∈ g, containsSub (natToChars m) r = true) := by
  have keep : ∀ (n : Nat), hasAssembly (srlAssemblyName n) = true →
      srlAssemblyName n ∉ groupRemovals →
      ∀ (idf : Name → Name → ℚ) (align : Name → Sq) (names : List Name),
        srlAssemblyName n ∉ remove_close_genomes_removals idf align names := by
    intro n hA hG idf align names hmem
    rcases List.mem_append.1 hmem with h | h
    · exact hG h
    · rw [removeLoop_no_assembly idf align names names 0 _ h] at hA
      exact Bool.false_ne_true hA
  have rest : ∀ (m : Nat), srlAssemblyName m ∈ groupRemovals →
      ∀ (idf : Name → Name → ℚ) (align : Name → Sq) (names : List Name),
        srlAssemblyName m ∈ remove_close_genomes_removals idf align names :=
    fun m hm idf align names => List.mem_append_left _ hm
  have hg' : g = [221, 244] ∨ g = [662, 656, 658] ∨ g = [218, 215, 224] ∨
      g = [398, 342] := by
    simpa [assembly_groups] using hg
  rcases hg' with rfl | rfl | rfl | rfl <;>
    · cases hsplit
      refine ⟨keep _ (by decide) (by decide), ?_, ?_⟩
      · intro m hm
        fin_cases hm <;> exact rest _ (by decide)
      · exact ⟨_, rfl, by decide⟩

/-- Witness for C9, at the first curated group `[221, 244]`:
`SRL221_assembly` survives and `SRL244_assembly` is removed, on a
concrete resolver input. -/
theorem curated_groups_keep_first_and_remove_rest_witness :
    srlAssemblyName 221 ∉ remove_close_genomes_removals (fun _ _ => 1)
        (fun _ => []) [] ∧
      srlAssemblyName 244 ∈ remove_close_genomes_removals (fun _ _ => 1)
        (fun _ => []) [] := by
  obtain ⟨h1, h2, _⟩ := curated_groups_keep_first_and_remove_rest [221, 244]
    (by decide) 221 [244] rfl
  exact ⟨h1 _ _ _, h2 244 (by decide) _ _ _⟩

end SuperAlign

namespace SuperAlign

/-- In a record list with pairwise distinct names, a name determines its
record. -/
theorem eq_of_mem_of_nodup_keys {β : Type} (l : List (List Char × β))
    (hnd : (l.map Prod.fst).Nodup) (p q : List Char × β)
    (hp : p ∈ l) (hq : q ∈ l) (hfst : p.1 = q.1) : p = q := by
  induction l with
  | nil => simp at hp
  | cons x xs ih =>
    simp only [List.map_cons, List.nodup_cons] at hnd
    rcases List.mem_cons.1 hp with hp1 | hp1 <;>
      rcases List.mem_cons.1 hq with hq1 | hq1
    · rw [hp1, hq1]
    · exfalso
      apply hnd.1
      rw [hp1] at hfst
      rw [hfst]
      exact List.mem_map_of_mem Prod.fst hq1
    · exfalso
      apply hnd.1
      rw [hq1] at hfst
      rw [← hfst]
      exact List.mem_map_of_mem Prod.fst hp1
    · exact ih hnd.2 hp1 hq1

/-- C8: a surviving taxon whose slice for a gene partition is entirely
gap characters is written (with its full concatenated sequence) to
`superalignment_reduced.fna`, but omitted from that gene's output
file. -/
theorem all_gap_slice_omitted_from_gene_file (align : List (Name × Sq))
    (toRemove : List Name) (ren : List (Name × Name)) (n : Name) (s : Sq)
    (a b : Nat) (hmem : (n, s) ∈ align) (hkeep : n ∉ toRemove)
    (hnd : ((reducedRecords align toRemove ren).map Prod.fst).Nodup)
    (hgap : pySlice s a b = List.replicate (pySlice s a b).length '-') :
    (applyRename ren n, s) ∈ reducedRecords align toRemove ren ∧
      applyRename ren n ∉
        (geneFileRecords (reducedRecords align toRemove ren) a b).map Prod.fst := by
  have hred : (applyRename ren n, s) ∈ reducedRecords align toRemove ren := by
    apply List.mem_filterMap.2
    exact ⟨(n, s), hmem, by rw [if_neg hkeep]⟩
  refine ⟨hred, ?_⟩
  intro hmap
  obtain ⟨q, hq, hq1⟩ := List.mem_map.1 hmap
  obtain ⟨p, hp, hfp⟩ := List.mem_filterMap.1 hq
  by_cases hcase : pySlice p.2 a b = List.replicate (pySlice p.2 a b).length '-'
  · rw [if_pos hcase] at hfp
    exact Option.noConfusion hfp
  · rw [if_neg hcase] at hfp
    have hq' : q = (p.1, pySlice p.2 a b) := (Option.some_inj.1 hfp).symm
    have hp1 : p.1 = applyRename ren n := by rw [← hq1, hq']
    have hpe : p = (applyRename ren n, s) :=
      eq_of_mem_of_nodup_keys _ hnd p (applyRename ren n, s) hp hred hp1
    apply hcase
    rw [hpe]
    exact hgap

/-- Witness for C8: taxon `A`'s slice for the partition `(0,2)` is all
gaps, so `A` appears in the reduced records but not in the gene file. -/
theorem all_gap_slice_omitted_from_gene_file_witness :
    (applyRename [] "A".toList, "--".toList) ∈
        reducedRecords [("A".toList, "--".toList), ("B".toList, "AC".toList)] [] [] ∧
      applyRename [] "A".toList ∉
        (geneFileRecords
          (reducedRecords [("A".toList, "--".toList), ("B".toList, "AC".toList)] [] [])
          0 2).map Prod.fst :=
  all_gap_slice_omitted_from_gene_file
    [("A".toList, "--".toList), ("B".toList, "AC".toList)] [] []
    "A".toList "--".toList 0 2 (by decide) (by decide) (by decide) (by decide)

end SuperAlign

namespace SuperAlign

/-- Pointwise evaluation of the symmetric double write of
`calc_identity_matrix`. -/
theorem updCell2_eval (f : Name → Name → Option ℚ) (n1 n2 : Name) (v : ℚ)
    (x y : Name) :
    updCell (updCell f n1 n2 v) n2 n1 v x y =
      if x = n2 ∧ y = n1 then some v
      else if x = n1 ∧ y = n2 then some v else f x y := rfl

/-- Case inversion for one inner-loop iteration of
`calc_identity_matrix`. -/
theorem matStep_cases {parts : List (Nat × Nat)} {n1 : Name} {s1 : Sq}
    {st st' : MatState} {p : Name × Sq}
    (h : matStep parts n1 s1 st p = some st') :
    (n1 = p.1 ∧ st' = ⟨updCell st.m n1 n1 1, st.log⟩) ∨
    (n1 ≠ p.1 ∧ st.m n1 p.1 ≠ none ∧ st' = st) ∨
    (n1 ≠ p.1 ∧ st.m n1 p.1 = none ∧
      ∃ v, calc_identity s1 p.2 parts = some v ∧
        st' = ⟨updCell (updCell st.m n1 p.1 v) p.1 n1 v,
          st.log ++ [(n1, p.1)]⟩) := by
  by_cases h1 : n1 = p.1
  · left
    rw [matStep, if_neg (not_not_intro h1)] at h
    rw [h1] at h ⊢
    exact ⟨rfl, (Option.some_inj.1 h).symm⟩
  · right
    rw [matStep, if_pos h1] at h
    by_cases h2 : st.m n1 p.1 = none
    · right
      rw [if_pos h2] at h
      rcases hc : calc_identity s1 p.2 parts with _ | v
      · rw [hc] at h
        exact absurd h (by simp)
      · rw [hc] at h
        exact ⟨h1, h2, v, rfl, (Option.some_inj.1 h).symm⟩
    · left
      rw [if_neg h2] at h
      exact ⟨h1, h2, (Option.some_inj.1 h).symm⟩

/-- One matrix-fill step preserves symmetry of the off-diagonal cells. -/
theorem matStep_sym {parts n1 s1} {st st' : MatState} {p : Name × Sq}
    (h : matStep parts n1 s1 st p = some st')
    (hs : ∀ a b : Name, a ≠ b → st.m a b = st.m b a) :
    ∀ a b : Name, a ≠ b → st'.m a b = st'.m b a := by
  intro a b hab
  rcases matStep_cases h with ⟨hd, rfl⟩ | ⟨_, _, rfl⟩ | ⟨hne, _, v, _, rfl⟩
  · show updCell st.m n1 n1 1 a b = updCell st.m n1 n1 1 b a
    unfold updCell
    by_cases ha : a = n1 ∧ b = n1
    · exact absurd (ha.1.trans ha.2.symm) hab
    · rw [if_neg ha]
      by_cases hb : b = n1 ∧ a = n1
      · exact absurd (hb.2.trans hb.1.symm) hab
      · rw [if_neg hb]
        exact hs a b hab
  · exact hs a b hab
  · show updCell (updCell st.m n1 p.1 v) p.1 n1 v a b =
      updCell (updCell st.m n1 p.1 v) p.1 n1 v b a
    rw [updCell2_eval, updCell2_eval]
    by_cases h1 : a = p.1 ∧ b = n1
    · rw [if_pos h1, if_neg (fun hc : b = p.1 ∧ a = n1 =>
        hne (h1.2.symm.trans hc.1))]
      rw [if_pos (show b = n1 ∧ a = p.1 from ⟨h1.2, h1.1⟩)]
    · rw [if_neg h1]
      by_cases h2 : a = n1 ∧ b = p.1
      · rw [if_pos h2, if_pos (show b = p.1 ∧ a = n1 from ⟨h2.2, h2.1⟩)]
      · rw [if_neg h2,
          if_neg (fun hc : b = p.1 ∧ a = n1 => h2 ⟨hc.2, hc.1⟩),
          if_neg (fun hc : b = n1 ∧ a = p.1 => h1 ⟨hc.2, hc.1⟩)]
        exact hs a b hab

/-- One matrix-fill step writes only 1 into diagonal cells. -/
theorem matStep_diag {parts n1 s1} {st st' : MatState} {p : Name × Sq}
    (h : matStep parts n1 s1 st p = some st')
    (hd : ∀ a : Name, st.m a a = none ∨ st.m a a = some 1) :
    ∀ a : Name, st'.m a a = none ∨ st'.m a a = some 1 := by
  intro a
  rcases matStep_cases h with ⟨_, rfl⟩ | ⟨_, _, rfl⟩ | ⟨hne, _, v, _, rfl⟩
  · show updCell st.m n1 n1 1 a a = none ∨ updCell st.m n1 n1 1 a a = some 1
    unfold updCell
    by_cases ha : a = n1 ∧ a = n1
    · rw [if_pos ha]
      exact Or.inr rfl
    · rw [if_neg ha]
      exact hd a
  · exact hd a
  · show updCell (updCell st.m n1 p.1 v) p.1 n1 v a a = none ∨
      updCell (updCell st.m n1 p.1 v) p.1 n1 v a a = some 1
    rw [updCell2_eval]
    rw [if_neg (fun hc : a = p.1 ∧ a = n1 => hne (hc.2.symm.trans hc.1)),
      if_neg (fun hc : a = n1 ∧ a = p.1 => hne (hc.1.symm.trans hc.2))]
    exact hd a

/-- One matrix-fill step never erases a filled cell. -/
theorem matStep_mono {parts n1 s1} {st st' : MatState} {p : Name × Sq}
    (h : matStep parts n1 s1 st p = some st') (a b : Name)
    (hab : st.m a b ≠ none) : st'.m a b ≠ none := by
  rcases matStep_cases h with ⟨_, rfl⟩ | ⟨_, _, rfl⟩ | ⟨_, _, v, _, rfl⟩
  · show updCell st.m n1 n1 1 a b ≠ none
    unfold updCell
    split
    · exact Option.some_ne_none 1
    · exact hab
  · exact hab
  · show updCell (updCell st.m n1 p.1 v) p.1 n1 v a b ≠ none
    rw [updCell2_eval]
    split
    · exact Option.some_ne_none v
    · split
      · exact Option.some_ne_none v
      · exact hab

/-- One matrix-fill step logs only off-diagonal pairs. -/
theorem matStep_log_ne {parts n1 s1} {st st' : MatState} {p : Name × Sq}
    (h : matStep parts n1 s1 st p = some st')
    (hl : ∀ e ∈ st.log, e.1 ≠ e.2) : ∀ e ∈ st'.log, e.1 ≠ e.2 := by
  rcases matStep_cases h with ⟨_, rfl⟩ | ⟨_, _, rfl⟩ | ⟨hne, _, v, _, rfl⟩
  · exact hl
  · exact hl
  · intro e he
    rcases List.mem_append.1 he with h1 | h1
    · exact hl e h1
    · have : e = (n1, p.1) := by simpa using h1
      rw [this]
      exact hne

/-- One matrix-fill step preserves the one-invocation bookkeeping: for
every unordered off-diagonal pair, the number of logged invocations is 0
while the cell is null and 1 once it is filled. -/
theorem matStep_count {parts n1 s1} {st st' : MatState} {p : Name × Sq}
    (h : matStep parts n1 s1 st p = some st')
    (hj : ∀ a b : Name, a ≠ b →
      st.log.count (a, b) + st.log.count (b, a) =
        if st.m a b = none then 0 else 1) :
    ∀ a b : Name, a ≠ b →
      st'.log.count (a, b) + st'.log.count (b, a) =
        if st'.m a b = none then 0 else 1 := by
  intro a b hab
  rcases matStep_cases h with ⟨_, rfl⟩ | ⟨_, _, rfl⟩ | ⟨hne, hnull, v, _, rfl⟩
  · show st.log.count (a, b) + st.log.count (b, a) =
      if updCell st.m n1 n1 1 a b = none then 0 else 1
    unfold updCell
    by_cases hc : a = n1 ∧ b = n1
    · exact absurd (hc.1.trans hc.2.symm) hab
    · rw [if_neg hc]
      exact hj a b hab
  · exact hj a b hab
  · show (st.log ++ [(n1, p.1)]).count (a, b) +
        (st.log ++ [(n1, p.1)]).count (b, a) =
      if updCell (updCell st.m n1 p.1 v) p.1 n1 v a b = none then 0 else 1
    rw [updCell2_eval, List.count_append, List.count_append]
    by_cases e1 : a = n1 ∧ b = p.1
    · obtain ⟨ha, hb⟩ := e1
      have hsum : st.log.count (a, b) + st.log.count (b, a) = 0 := by
        rw [hj a b hab, if_pos (by rw [ha, hb]; exact hnull)]
      have hs1 : ([(n1, p.1)] : List (Name × Name)).count (a, b) = 1 := by
        simp only [List.count_cons, List.count_nil, beq_iff_eq]
        rw [if_pos (by rw [ha, hb])]
      have hs2 : ([(n1, p.1)] : List (Name × Name)).count (b, a) = 0 := by
        simp only [List.count_cons, List.count_nil, beq_iff_eq]
        rw [if_neg (fun hc : (n1, p.1) = (b, a) =>
          hne ((congrArg Prod.snd hc).trans ha).symm)]
      rw [if_neg (fun hc : a = p.1 ∧ b = n1 => hne (ha.symm.trans hc.1)),
        if_pos (show a = n1 ∧ b = p.1 from ⟨ha, hb⟩),
        if_neg (Option.some_ne_none v), hs1, hs2]
      omega
    · by_cases e2 : a = p.1 ∧ b = n1
      · obtain ⟨ha, hb⟩ := e2
        have hsum : st.log.count (b, a) + st.log.count (a, b) = 0 := by
          rw [hj b a hab.symm, if_pos (by rw [ha, hb]; exact hnull)]
        have hs1 : ([(n1, p.1)] : List (Name × Name)).count (a, b) = 0 := by
          simp only [List.count_cons, List.count_nil, beq_iff_eq]
          rw [if_neg (fun hc : (n1, p.1) = (a, b) =>
            hne ((congrArg Prod.fst hc).trans ha))]
        have hs2 : ([(n1, p.1)] : List (Name × Name)).count (b, a) = 1 := by
          simp only [List.count_cons, List.count_nil, beq_iff_eq]
          rw [if_pos (by rw [ha, hb])]
        rw [if_pos (show a = p.1 ∧ b = n1 from ⟨ha, hb⟩),
          if_neg (Option.some_ne_none v), hs1, hs2]
        omega
      · have hs1 : ([(n1, p.1)] : List (Name × Name)).count (a, b) = 0 := by
          simp only [List.count_cons, List.count_nil, beq_iff_eq]
          rw [if_neg (fun hc : (n1, p.1) = (a, b) =>
            e1 ⟨(congrArg Prod.fst hc).symm, (congrArg Prod.snd hc).symm⟩)]
        have hs2 : ([(n1, p.1)] : List (Name × Name)).count (b, a) = 0 := by
          simp only [List.count_cons, List.count_nil, beq_iff_eq]
          rw [if_neg (fun hc : (n1, p.1) = (b, a) =>
            e2 ⟨(congrArg Prod.snd hc).symm, (congrArg Prod.fst hc).symm⟩)]
        rw [if_neg (fun hc : a = p.1 ∧ b = n1 => e2 hc),
          if_neg (fun hc : a = n1 ∧ b = p.1 => e1 hc),
          hs1, hs2]
        have := hj a b hab
        omega

end SuperAlign

namespace SuperAlign

/-- One matrix-fill step preserves all loop invariants. -/
theorem matStep_inv {parts n1 s1} {st st' : MatState} {p : Name × Sq}
    (h : matStep parts n1 s1 st p = some st') (hi : MatInv st) : MatInv st' :=
  ⟨matStep_sym h hi.1, matStep_diag h hi.2.1, matStep_log_ne h hi.2.2.1,
    matStep_count h hi.2.2.2⟩

/-- The inner loop preserves all loop invariants. -/
theorem matInner_inv {parts n1 s1} {l : List (Name × Sq)} {st st' : MatState}
    (h : matInner parts n1 s1 l st = some st') (hi : MatInv st) : MatInv st' := by
  induction l generalizing st with
  | nil =>
    rw [matInner] at h
    rw [← Option.some_inj.1 h]
    exact hi
  | cons p rest ih =>
    rw [matInner] at h
    rcases hstep : matStep parts n1 s1 st p with _ | st1
    · rw [hstep] at h
      exact absurd h (by simp)
    · rw [hstep] at h
      exact ih h (matStep_inv hstep hi)

/-- The inner loop never erases a filled cell. -/
theorem matInner_mono {parts n1 s1} {l : List (Name × Sq)} {st st' : MatState}
    (h : matInner parts n1 s1 l st = some st') (a b : Name)
    (hab : st.m a b ≠ none) : st'.m a b ≠ none := by
  induction l generalizing st with
  | nil =>
    rw [matInner] at h
    rw [← Option.some_inj.1 h]
    exact hab
  | cons p rest ih =>
    rw [matInner] at h
    rcases hstep : matStep parts n1 s1 st p with _ | st1
    · rw [hstep] at h
      exact absurd h (by simp)
    · rw [hstep] at h
      exact ih h (matStep_mono hstep a b hab)

/-- One matrix-fill step fills the visited cell. -/
theorem matStep_filled {parts n1 s1} {st st' : MatState} {p : Name × Sq}
    (h : matStep parts n1 s1 st p = some st') : st'.m n1 p.1 ≠ none := by
  rcases matStep_cases h with ⟨hd, rfl⟩ | ⟨_, hnn, rfl⟩ | ⟨hne, _, v, _, rfl⟩
  · show updCell st.m n1 n1 1 n1 p.1 ≠ none
    rw [← hd]
    unfold updCell
    rw [if_pos ⟨rfl, rfl⟩]
    exact Option.some_ne_none 1
  · exact hnn
  · show updCell (updCell st.m n1 p.1 v) p.1 n1 v n1 p.1 ≠ none
    rw [updCell2_eval,
      if_neg (fun hc : n1 = p.1 ∧ p.1 = n1 => hne hc.1),
      if_pos ⟨rfl, rfl⟩]
    exact Option.some_ne_none v

/-- After the inner loop for outer taxon `n1`, every cell `(n1, y)` with
`y` a name of the visited list is filled. -/
theorem matInner_filled {parts n1 s1} {l : List (Name × Sq)} {st st' : MatState}
    (h : matInner parts n1 s1 l st = some st') :
    ∀ p ∈ l, st'.m n1 p.1 ≠ none := by
  induction l generalizing st with
  | nil => intro p hp; simp at hp
  | cons q rest ih =>
    rw [matInner] at h
    rcases hstep : matStep parts n1 s1 st q with _ | st1
    · rw [hstep] at h
      exact absurd h (by simp)
    · rw [hstep] at h
      intro p hp
      rcases List.mem_cons.1 hp with hp1 | hp1
      · rw [hp1]
        exact matInner_mono h n1 q.1 (matStep_filled hstep)
      · exact ih h p hp1

/-- The outer loop preserves all loop invariants. -/
theorem matOuter_inv {parts} {records l : List (Name × Sq)} {st st' : MatState}
    (h : matOuter parts records l st = some st') (hi : MatInv st) :
    MatInv st' := by
  induction l generalizing st with
  | nil =>
    rw [matOuter] at h
    rw [← Option.some_inj.1 h]
    exact hi
  | cons p rest ih =>
    rw [matOuter] at h
    rcases hstep : matInner parts p.1 p.2 records st with _ | st1
    · rw [hstep] at h
      exact absurd h (by simp)
    · rw [hstep] at h
      exact ih h (matInner_inv hstep hi)

/-- The outer loop never erases a filled cell. -/
theorem matOuter_mono {parts} {records l : List (Name × Sq)} {st st' : MatState}
    (h : matOuter parts records l st = some st') (a b : Name)
    (hab : st.m a b ≠ none) : st'.m a b ≠ none := by
  induction l generalizing st with
  | nil =>
    rw [matOuter] at h
    rw [← Option.some_inj.1 h]
    exact hab
  | cons p rest ih =>
    rw [matOuter] at h
    rcases hstep : matInner parts p.1 p.2 records st with _ | st1
    · rw [hstep] at h
      exact absurd h (by simp)
    · rw [hstep] at h
      exact ih h (matInner_mono hstep a b hab)

/-- After the outer loop, every cell `(x, y)` with `x` a name of the
visited outer list and `y` a name of the records is filled. -/
theorem matOuter_filled {parts} {records l : List (Name × Sq)} {st st' : MatState}
    (h : matOuter parts records l st = some st') :
    ∀ q ∈ l, ∀ p ∈ records, st'.m q.1 p.1 ≠ none := by
  induction l generalizing st with
  | nil => intro q hq; simp at hq
  | cons q0 rest ih =>
    rw [matOuter] at h
    rcases hstep : matInner parts q0.1 q0.2 records st with _ | st1
    · rw [hstep] at h
      exact absurd h (by simp)
    · rw [hstep] at h
      intro q hq p hp
      rcases List.mem_cons.1 hq with hq1 | hq1
      · rw [hq1]
        exact matOuter_mono h q0.1 p.1 (matInner_filled hstep p hp)
      · exact ih h q hq1 p hp

end SuperAlign

namespace SuperAlign

/-- C4: the matrix produced by `calc_identity_matrix` is symmetric with
unit diagonal; each unordered off-diagonal pair's value comes from
exactly one `calc_identity` invocation (counted by the invocation log),
and diagonal cells are set to 1 with no logged invocation. -/
theorem identity_matrix_symmetric_unit_diagonal
    (records : List (Name × Sq)) (parts : List (Nat × Nat)) (st : MatState)
    (X Y : Name) (hrun : calc_identity_matrix records parts = some st)
    (hX : X ∈ records.map Prod.fst) (hY : Y ∈ records.map Prod.fst)
    (hXY : X ≠ Y) :
    st.m X Y = st.m Y X ∧ st.m X Y ≠ none ∧
      st.log.count (X, Y) + st.log.count (Y, X) = 1 ∧
      st.m X X = some 1 ∧ (X, X) ∉ st.log := by
  rw [calc_identity_matrix] at hrun
  have hinv0 : MatInv ⟨fun _ _ => none, []⟩ := by
    refine ⟨fun a b _ => rfl, fun a => Or.inl rfl, by simp, ?_⟩
    intro a b _
    simp
  have hinv := matOuter_inv hrun hinv0
  obtain ⟨qX, hqX, hqX1⟩ := List.mem_map.1 hX
  obtain ⟨qY, hqY, hqY1⟩ := List.mem_map.1 hY
  have hfillXY : st.m X Y ≠ none := by
    rw [← hqX1, ← hqY1]
    exact matOuter_filled hrun qX hqX qY hqY
  have hfillXX : st.m X X ≠ none := by
    rw [← hqX1]
    exact matOuter_filled hrun qX hqX qX hqX
  refine ⟨hinv.1 X Y hXY, hfillXY, ?_, ?_, ?_⟩
  · rw [hinv.2.2.2 X Y hXY, if_neg hfillXY]
  · rcases hinv.2.1 X with hnone | hone
    · exact absurd hnone hfillXX
    · exact hone
  · intro hmem
    exact hinv.2.2.1 (X, X) hmem rfl

/-- Witness for C4, on two taxa `A`, `B` with identical sequences and a
single partition. -/
theorem identity_matrix_symmetric_unit_diagonal_witness :
    ∃ st, calc_identity_matrix
        [("A".toList, "AC".toList), ("B".toList, "AC".toList)] [(0, 2)]
        = some st ∧
      st.m "A".toList "B".toList = st.m "B".toList "A".toList ∧
      st.m "A".toList "B".toList ≠ none ∧
      st.log.count ("A".toList, "B".toList) +
        st.log.count ("B".toList, "A".toList) = 1 ∧
      st.m "A".toList "A".toList = some 1 ∧
      ("A".toList, "A".toList) ∉ st.log := by
  rcases hrun : calc_identity_matrix
      [("A".toList, "AC".toList), ("B".toList, "AC".toList)] [(0, 2)] with _ | st
  · exfalso
    have hs : (calc_identity_matrix
        [("A".toList, "AC".toList), ("B".toList, "AC".toList)]
        [(0, 2)]).isSome = true := by decide
    rw [hrun] at hs
    exact Bool.false_ne_true hs
  · exact ⟨st, rfl,
      identity_matrix_symmetric_unit_diagonal
        [("A".toList, "AC".toList), ("B".toList, "AC".toList)] [(0, 2)] st
        "A".toList "B".toList hrun (by decide) (by decide) (by decide)⟩

end SuperAlign

namespace SuperAlign

/- Dictionary lemmas for the association-list model of Python dicts. -/

theorem lookupAssoc_updateAssoc_self {β : Type} (l : List (List Char × β))
    (k : List Char) (v : β) : lookupAssoc (updateAssoc l k v) k = some v := by
  induction l with
  | nil => simp [updateAssoc, lookupAssoc]
  | cons x xs ih =>
    rw [updateAssoc]
    by_cases hx : x.1 = k
    · rw [if_pos hx, lookupAssoc, if_pos rfl]
    · rw [if_neg hx, lookupAssoc, if_neg hx]
      exact ih

theorem updateAssoc_updateAssoc {β : Type} (l : List (List Char × β))
    (k : List Char) (v v' : β) :
    updateAssoc (updateAssoc l k v) k v' = updateAssoc l k v' := by
  induction l with
  | nil => simp [updateAssoc]
  | cons x xs ih =>
    rw [updateAssoc]
    by_cases hx : x.1 = k
    · rw [if_pos hx, updateAssoc, if_pos rfl, updateAssoc, if_pos hx]
    · rw [if_neg hx, updateAssoc, if_neg hx, updateAssoc, if_neg hx, ih]

theorem updateAssoc_of_not_mem {β : Type} (l : List (List Char × β))
    (k : List Char) (v : β) (hk : k ∉ l.map Prod.fst) :
    updateAssoc l k v = l ++ [(k, v)] := by
  induction l with
  | nil => rfl
  | cons x xs ih =>
    simp only [List.map_cons, List.mem_cons, not_or] at hk
    rw [updateAssoc, if_neg (fun he => hk.1 he.symm), List.cons_append,
      ih hk.2]

theorem mem_keys_updateAssoc {β : Type} (l : List (List Char × β))
    (k x : List Char) (v : β)
    (hx : x ∈ (updateAssoc l k v).map Prod.fst) :
    x ∈ l.map Prod.fst ∨ x = k := by
  induction l with
  | nil =>
    simp only [updateAssoc, List.map_cons, List.map_nil] at hx
    right
    simpa using hx
  | cons y ys ih =>
    rw [updateAssoc] at hx
    by_cases hy : y.1 = k
    · rw [if_pos hy] at hx
      simp only [List.map_cons, List.mem_cons] at hx ⊢
      rcases hx with h | h
      · exact Or.inr h
      · exact Or.inl (Or.inr h)
    · rw [if_neg hy] at hx
      simp only [List.map_cons, List.mem_cons] at hx ⊢
      rcases hx with h | h
      · exact Or.inl (Or.inl h)
      · rcases ih h with h2 | h2
        · exact Or.inl (Or.inr h2)
        · exact Or.inr h2

/- Characterization of the per-name inner loop of the assembler. -/

theorem procNames_curPos (file : FileName) (al : List (Name × Sq))
    (st : SAState) (len0 : Option Nat) :
    (procNames file al st len0).1.curPos = st.curPos := by
  induction al generalizing st len0 with
  | nil => rfl
  | cons p rest ih => exact ih _ _

theorem procNames_flags_notmem (file : FileName) (al : List (Name × Sq))
    (st : SAState) (len0 : Option Nat) (n : Name)
    (hn : n ∉ al.map Prod.fst) :
    (procNames file al st len0).1.flags n = st.flags n := by
  induction al generalizing st len0 with
  | nil => rfl
  | cons p rest ih =>
    simp only [List.map_cons, List.mem_cons, not_or] at hn
    rw [procNames, ih _ _ hn.2]
    show (if n = p.1 then true else st.flags n) = st.flags n
    rw [if_neg hn.1]

theorem procNames_flags_mem (file : FileName) (al : List (Name × Sq))
    (st : SAState) (len0 : Option Nat) (n : Name)
    (hn : n ∈ al.map Prod.fst) :
    (procNames file al st len0).1.flags n = true := by
  induction al generalizing st len0 with
  | nil => simp at hn
  | cons p rest ih =>
    rw [procNames]
    by_cases hmem : n ∈ rest.map Prod.fst
    · exact ih _ _ hmem
    · have hp : n = p.1 := by
        simp only [List.map_cons, List.mem_cons] at hn
        exact hn.resolve_right hmem
      rw [procNames_flags_notmem _ _ _ _ _ hmem]
      show (if n = p.1 then true else st.flags n) = true
      rw [if_pos hp]

theorem procNames_superA_notmem (file : FileName) (al : List (Name × Sq))
    (st : SAState) (len0 : Option Nat) (n : Name)
    (hn : n ∉ al.map Prod.fst) :
    (procNames file al st len0).1.superA n = st.superA n := by
  induction al generalizing st len0 with
  | nil => rfl
  | cons p rest ih =>
    simp only [List.map_cons, List.mem_cons, not_or] at hn
    rw [procNames, ih _ _ hn.2]
    show dictSet st.superA p.1 _ n = st.superA n
    unfold dictSet
    rw [if_neg hn.1]

theorem procNames_superA_mem (file : FileName) (al : List (Name × Sq))
    (st : SAState) (len0 : Option Nat) (n : Name) (s : Sq)
    (hnd : (al.map Prod.fst).Nodup) (hmem : (n, s) ∈ al) :
    (procNames file al st len0).1.superA n =
      some (((st.superA n).getD []) ++ s) := by
  induction al generalizing st len0 with
  | nil => simp at hmem
  | cons p rest ih =>
    obtain ⟨pn, ps⟩ := p
    simp only [List.map_cons, List.nodup_cons] at hnd
    rcases List.mem_cons.1 hmem with h1 | h1
    · obtain ⟨rfl, rfl⟩ : n = pn ∧ s = ps :=
        ⟨congrArg Prod.fst h1, congrArg Prod.snd h1⟩
      rw [procNames, procNames_superA_notmem _ _ _ _ _ hnd.1]
      show dictSet st.superA n (((st.superA n).getD []) ++ s) n = _
      unfold dictSet
      rw [if_pos rfl]
    · have hn_in : n ∈ rest.map Prod.fst := List.mem_map_of_mem Prod.fst h1
      have hne : n ≠ pn := fun he => hnd.1 (he ▸ hn_in)
      rw [procNames, ih _ _ hnd.2 h1]
      show some ((dictSet st.superA pn (((st.superA pn).getD []) ++ ps) n).getD []
        ++ s) = _
      unfold dictSet
      rw [if_neg hne]

theorem procNames_superA_mono (file : FileName) (al : List (Name × Sq))
    (st : SAState) (len0 : Option Nat) (n : Name)
    (hn : st.superA n ≠ none) : (procNames file al st len0).1.superA n ≠ none := by
  induction al generalizing st len0 with
  | nil => exact hn
  | cons p rest ih =>
    rw [procNames]
    apply ih
    show dictSet st.superA p.1 _ n ≠ none
    unfold dictSet
    split
    · exact Option.some_ne_none _
    · exact hn

theorem procNames_parts (file : FileName) (al : List (Name × Sq))
    (st : SAState) (len0 : Option Nat) (w : Nat) (hal : al ≠ [])
    (hw : ∀ p ∈ al, p.2.length = w) :
    (procNames file al st len0).1.parts =
      updateAssoc st.parts file (st.curPos, st.curPos + w) := by
  induction al generalizing st len0 with
  | nil => exact absurd rfl hal
  | cons p rest ih =>
    rw [procNames]
    have hpw : p.2.length = w := hw p (List.mem_cons_self p rest)
    rcases hrest : rest with _ | ⟨q, rest'⟩
    · show (saStep file p st).parts = _
      unfold saStep
      dsimp only
      rw [hpw]
    · rw [← hrest]
      have hrestne : rest ≠ [] := by rw [hrest]; simp
      rw [ih _ _ hrestne (fun q hq => hw q (List.mem_cons_of_mem p hq))]
      show updateAssoc (saStep file p st).parts file
          ((saStep file p st).curPos, (saStep file p st).curPos + w) = _
      unfold saStep
      dsimp only
      rw [hpw, updateAssoc_updateAssoc]

theorem procNames_len (file : FileName) (al : List (Name × Sq))
    (st : SAState) (len0 : Option Nat) (w : Nat) (hal : al ≠ [])
    (hw : ∀ p ∈ al, p.2.length = w) :
    (procNames file al st len0).2 = some w := by
  induction al generalizing st len0 with
  | nil => exact absurd rfl hal
  | cons p rest ih =>
    rw [procNames]
    have hpw : p.2.length = w := hw p (List.mem_cons_self p rest)
    rcases hrest : rest with _ | ⟨q, rest'⟩
    · subst hrest
      show some p.2.length = some w
      rw [hpw]
    · rw [← hrest]
      have hrestne : rest ≠ [] := by rw [hrest]; simp
      exact ih _ _ hrestne (fun q hq => hw q (List.mem_cons_of_mem p hq))

end SuperAlign

namespace SuperAlign

/- Characterization of the gap-filling loop of the assembler. -/

theorem gapFillStep_flags (len : Nat) (k : Name) (st : SAState) :
    (gapFillStep len k st).flags = st.flags := by
  unfold gapFillStep
  rcases hA : st.superA k with _ | v <;>
    rcases hF : st.flags k with _ | _ <;>
      simp [hA, hF]

theorem gapFillStep_parts (len : Nat) (k : Name) (st : SAState) :
    (gapFillStep len k st).parts = st.parts := by
  unfold gapFillStep
  rcases hA : st.superA k with _ | v <;>
    rcases hF : st.flags k with _ | _ <;>
      simp [hA, hF]

theorem gapFillStep_curPos (len : Nat) (k : Name) (st : SAState) :
    (gapFillStep len k st).curPos = st.curPos := by
  unfold gapFillStep
  rcases hA : st.superA k with _ | v <;>
    rcases hF : st.flags k with _ | _ <;>
      simp [hA, hF]

theorem gapFillStep_superA_other (len : Nat) (k : Name) (st : SAState)
    (n : Name) (hn : n ≠ k) :
    (gapFillStep len k st).superA n = st.superA n := by
  unfold gapFillStep dictSet
  rcases hA : st.superA k with _ | v <;>
    rcases hF : st.flags k with _ | _ <;>
      simp [hA, hF, hn]

theorem gapFillStep_superA_self (len : Nat) (k : Name) (st : SAState) :
    (gapFillStep len k st).superA k =
      some (((st.superA k).getD []) ++
        (if st.flags k = true then [] else List.replicate len '-')) := by
  unfold gapFillStep dictSet
  rcases hA : st.superA k with _ | v <;>
    rcases hF : st.flags k with _ | _ <;>
      simp [hA, hF]

end SuperAlign

namespace SuperAlign

theorem gapFill_flags (len : Nat) (R : List Name) (st : SAState) :
    (gapFill len R st).flags = st.flags := by
  induction R generalizing st with
  | nil => rfl
  | cons k rest ih => rw [gapFill, ih, gapFillStep_flags]

theorem gapFill_parts (len : Nat) (R : List Name) (st : SAState) :
    (gapFill len R st).parts = st.parts := by
  induction R generalizing st with
  | nil => rfl
  | cons k rest ih => rw [gapFill, ih, gapFillStep_parts]

theorem gapFill_curPos (len : Nat) (R : List Name) (st : SAState) :
    (gapFill len R st).curPos = st.curPos := by
  induction R generalizing st with
  | nil => rfl
  | cons k rest ih => rw [gapFill, ih, gapFillStep_curPos]

theorem gapFill_superA_notmem (len : Nat) (R : List Name) (st : SAState)
    (n : Name) (hn : n ∉ R) : (gapFill len R st).superA n = st.superA n := by
  induction R generalizing st with
  | nil => rfl
  | cons k rest ih =>
    simp only [List.mem_cons, not_or] at hn
    rw [gapFill, ih _ hn.2, gapFillStep_superA_other _ _ _ _ hn.1]

theorem gapFill_superA_mem (len : Nat) (R : List Name) (st : SAState)
    (n : Name) (hR : R.Nodup) (hn : n ∈ R) :
    (gapFill len R st).superA n =
      some (((st.superA n).getD []) ++
        (if st.flags n = true then [] else List.replicate len '-')) := by
  induction R generalizing st with
  | nil => simp at hn
  | cons k rest ih =>
    simp only [List.nodup_cons] at hR
    rcases List.mem_cons.1 hn with h1 | h1
    · subst h1
      rw [gapFill, gapFill_superA_notmem _ _ _ _ hR.1,
        gapFillStep_superA_self]
    · have hne : n ≠ k := fun he => hR.1 (he ▸ h1)
      rw [gapFill, ih _ hR.2 h1, gapFillStep_superA_other _ _ _ _ hne,
        gapFillStep_flags]

theorem gapFill_superA_mono (len : Nat) (R : List Name) (st : SAState)
    (n : Name) (hn : st.superA n ≠ none) :
    (gapFill len R st).superA n ≠ none := by
  induction R generalizing st with
  | nil => exact hn
  | cons k rest ih =>
    rw [gapFill]
    apply ih
    by_cases hk : n = k
    · subst hk
      rw [gapFillStep_superA_self]
      exact Option.some_ne_none _
    · rw [gapFillStep_superA_other _ _ _ _ hk]
      exact hn

/- The global registry has pairwise distinct names. -/

theorem addNames_nodup (acc : List Name) (al : List (Name × Sq))
    (h : acc.Nodup) : (addNames acc al).Nodup := by
  induction al generalizing acc with
  | nil => exact h
  | cons p rest ih =>
    rw [addNames]
    apply ih
    by_cases hp : p.1 ∈ acc
    · rw [if_pos hp]
      exact h
    · rw [if_neg hp]
      simp [List.nodup_append, h, hp]

theorem registry_nodup (files : List (FileName × List (Name × Sq))) :
    (retireve_genomes_names files).Nodup := by
  have haux : ∀ (fs : List (FileName × List (Name × Sq))) (acc : List Name),
      acc.Nodup → (retireveAux acc fs).Nodup := by
    intro fs
    induction fs with
    | nil => intro acc h; exact h
    | cons fa rest ih =>
      intro acc h
      rw [retireveAux]
      exact ih _ (addNames_nodup acc fa.2 h)
  exact haux files [] List.nodup_nil

end SuperAlign

namespace SuperAlign

/-- Main loop invariant of `create_super_alignment`: running the file
loop from a state in which every registry taxon's accumulated
super-sequence has length `curPos` advances `curPos` by the total width
of the processed files, keeps every registry taxon's sequence length
equal to `curPos`, appends one contiguous partition interval per file,
and never erases a taxon's entry. -/
theorem saLoop_spec (R : List Name) (hR : R.Nodup) :
    ∀ (fs : List (FileName × List (Name × Sq))) (st st' : SAState),
    saLoop R fs st = some st' →
    (∀ fa ∈ fs, equalWidths fa.2) →
    (∀ fa ∈ fs, (fa.2.map Prod.fst).Nodup) →
    (fs.map Prod.fst).Nodup →
    (∀ k ∈ st.parts.map Prod.fst, k ∉ fs.map Prod.fst) →
    (∀ n ∈ R, ((st.superA n).getD []).length = st.curPos) →
    st'.curPos = st.curPos + totalWidth fs ∧
    (∀ n ∈ R, ((st'.superA n).getD []).length = st'.curPos) ∧
    st'.parts = st.parts ++ partsFrom st.curPos fs ∧
    (∀ n, st.superA n ≠ none → st'.superA n ≠ none) ∧
    (fs ≠ [] → ∀ n ∈ R, st'.superA n ≠ none) := by
  intro fs
  induction fs with
  | nil =>
    intro st st' h hW hN hFnd hK hInv
    rw [saLoop] at h
    obtain rfl : st = st' := Option.some_inj.1 h
    refine ⟨by simp [totalWidth], hInv, by simp [partsFrom], fun n hn => hn,
      fun hne => absurd rfl hne⟩
  | cons fa rest ih =>
    obtain ⟨file, al⟩ := fa
    intro st st' h hW hN hFnd hK hInv
    simp only [saLoop] at h
    split at h
    · exact absurd h (by simp)
    · rename_i len hlen
      split at h
      · exact absurd h (by simp)
      · rename_i p hlook
        have hal : al ≠ [] := by
          rintro rfl
          simp [procNames] at hlen
        have hwal : ∀ q ∈ al, q.2.length = widthOf al :=
          hW (file, al) (List.mem_cons_self _ _)
        have hlw : len = widthOf al := by
          have hpl := procNames_len file al
            { st with flags := fun _ => false } none (widthOf al) hal hwal
          rw [hpl] at hlen
          exact (Option.some_inj.1 hlen).symm
        have hparts1 : (procNames file al
            { st with flags := fun _ => false } none).1.parts =
            updateAssoc st.parts file (st.curPos, st.curPos + widthOf al) :=
          procNames_parts file al _ none (widthOf al) hal hwal
        have hfile_notin : file ∉ st.parts.map Prod.fst := by
          intro hmem
          exact hK file hmem (by simp)
        have hlook' : lookupAssoc (gapFill len R (procNames file al
            { st with flags := fun _ => false } none).1).parts file =
            some (st.curPos, st.curPos + widthOf al) := by
          rw [gapFill_parts, hparts1]
          exact lookupAssoc_updateAssoc_self _ _ _
        have hp : p = (st.curPos, st.curPos + widthOf al) := by
          rw [hlook] at hlook'
          exact Option.some_inj.1 hlook'
        have hfrest : file ∉ rest.map Prod.fst := by
          have := hFnd
          simp only [List.map_cons, List.nodup_cons] at this
          exact this.1
        have hFnd' : (rest.map Prod.fst).Nodup := by
          have := hFnd
          simp only [List.map_cons, List.nodup_cons] at this
          exact this.2
        have hK3 : ∀ k ∈ ({ gapFill len R (procNames file al
              { st with flags := fun _ => false } none).1 with
              curPos := p.2 } : SAState).parts.map Prod.fst,
            k ∉ rest.map Prod.fst := by
          intro k hk
          have hk2 : k ∈ (updateAssoc st.parts file
              (st.curPos, st.curPos + widthOf al)).map Prod.fst := by
            rw [← hparts1, ← gapFill_parts len R]
            exact hk
          rcases mem_keys_updateAssoc _ _ _ _ hk2 with h2 | h2
          · intro hkr
            exact hK k h2 (by simp [hkr])
          · rw [h2]
            exact hfrest
        have hInv3 : ∀ n ∈ R, ((({ gapFill len R (procNames file al
              { st with flags := fun _ => false } none).1 with
              curPos := p.2 } : SAState).superA n).getD []).length =
            ({ gapFill len R (procNames file al
              { st with flags := fun _ => false } none).1 with
              curPos := p.2 } : SAState).curPos := by
          intro n hn
          show (((gapFill len R (procNames file al
              { st with flags := fun _ => false } none).1).superA n).getD
              []).length = p.2
          rw [gapFill_superA_mem len R _ n hR hn, hp]
          by_cases hnal : n ∈ al.map Prod.fst
          · obtain ⟨q, hq, hql⟩ := List.mem_map.1 hnal
            have hpair : (n, q.2) ∈ al := by
              rw [← hql]
              simpa using hq
            rw [procNames_superA_mem file al _ none n q.2
                (hN (file, al) (List.mem_cons_self _ _)) hpair,
              procNames_flags_mem file al _ none n hnal]
            show ((((st.superA n).getD [] ++ q.2) ++
              (if true = true then [] else List.replicate len '-')).length) = _
            rw [if_pos rfl, List.append_nil, List.length_append, hInv n hn,
              hwal q hq]
          · rw [procNames_superA_notmem file al _ none n hnal,
              procNames_flags_notmem file al _ none n hnal]
            show (((st.superA n).getD [] ++
              (if false = true then [] else List.replicate len '-')).length) = _
            rw [if_neg (by simp), List.length_append, hInv n hn,
              List.length_replicate, hlw]
        obtain ⟨hcur', hlen', hparts', hmono', hsome'⟩ :=
          ih _ st' h (fun fa hfa => hW fa (List.mem_cons_of_mem _ hfa))
            (fun fa hfa => hN fa (List.mem_cons_of_mem _ hfa)) hFnd' hK3 hInv3
        have hst3mono : ∀ n, st.superA n ≠ none →
            ({ gapFill len R (procNames file al
              { st with flags := fun _ => false } none).1 with
              curPos := p.2 } : SAState).superA n ≠ none := by
          intro n hn
          show (gapFill len R _).superA n ≠ none
          apply gapFill_superA_mono
          exact procNames_superA_mono file al _ none n hn
        refine ⟨?_, hlen', ?_, ?_, ?_⟩
        · rw [hcur']
          show p.2 + totalWidth rest = st.curPos + totalWidth ((file, al) :: rest)
          rw [hp]
          simp only [totalWidth, List.map_cons, List.sum_cons]
          omega
        · rw [hparts']
          show (gapFill len R _).parts ++ partsFrom p.2 rest = _
          rw [gapFill_parts, hparts1, hp,
            updateAssoc_of_not_mem _ _ _ hfile_notin, partsFrom,
            List.append_assoc]
          rfl
        · intro n hn
          exact hmono' n (hst3mono n hn)
        · intro _ n hn
          apply hmono' n
          show (gapFill len R _).superA n ≠ none
          rw [gapFill_superA_mem len R _ n hR hn]
          exact Option.some_ne_none _

end SuperAlign

namespace SuperAlign

theorem partsFrom_first (c : Nat) (fs : List (FileName × List (Name × Sq)))
    (p0 : FileName × (Nat × Nat)) (h : (partsFrom c fs)[0]? = some p0) :
    p0.2.1 = c := by
  cases fs with
  | nil => simp [partsFrom] at h
  | cons fa rest =>
    rw [partsFrom] at h
    simp only [List.getElem?_cons_zero, Option.some_inj] at h
    rw [← h]

theorem partsFrom_chain (c : Nat) (fs : List (FileName × List (Name × Sq)))
    (i : Nat) (pi pj : FileName × (Nat × Nat))
    (hi : (partsFrom c fs)[i]? = some pi)
    (hj : (partsFrom c fs)[i + 1]? = some pj) : pi.2.2 = pj.2.1 := by
  induction fs generalizing c i with
  | nil => simp [partsFrom] at hi
  | cons fa rest ih =>
    rw [partsFrom] at hi hj
    match i with
    | 0 =>
      simp only [List.getElem?_cons_zero, Option.some_inj] at hi
      simp only [List.getElem?_cons_succ] at hj
      rw [← hi]
      exact (partsFrom_first _ _ _ hj).symm
    | i' + 1 =>
      simp only [List.getElem?_cons_succ] at hi hj
      exact ih _ _ hi hj

theorem partsFrom_last (c : Nat) (fs : List (FileName × List (Name × Sq)))
    (pl : FileName × (Nat × Nat)) (h : (partsFrom c fs).getLast? = some pl) :
    pl.2.2 = c + totalWidth fs := by
  induction fs generalizing c with
  | nil => simp [partsFrom] at h
  | cons fa rest ih =>
    rw [partsFrom] at h
    cases rest with
    | nil =>
      simp only [partsFrom, List.getLast?_singleton, Option.some_inj] at h
      rw [← h]
      simp [totalWidth]
    | cons fb rest2 =>
      rw [partsFrom, List.getLast?_cons_cons, ← partsFrom] at h
      have := ih (c + widthOf fa.2) h
      rw [this]
      simp only [totalWidth, List.map_cons, List.sum_cons]
      omega

/-- C5: whenever `create_super_alignment` succeeds on gene alignments of
consistent per-file width, every taxon of the global registry receives a
super-sequence whose length is the sum of all gene widths (hence all
super-sequences have the same length). -/
theorem super_alignment_lengths (files : List (FileName × List (Name × Sq)))
    (sa : Name → Option Sq) (parts : List (FileName × (Nat × Nat)))
    (hW : ∀ fa ∈ files, equalWidths fa.2)
    (hN : ∀ fa ∈ files, (fa.2.map Prod.fst).Nodup)
    (hFnd : (files.map Prod.fst).Nodup)
    (hrun : create_super_alignment files = some (sa, parts)) :
    ∀ n ∈ retireve_genomes_names files,
      ∃ s, sa n = some s ∧ s.length = totalWidth files := by
  rw [create_super_alignment] at hrun
  rcases hsl : saLoop (retireve_genomes_names files) files
      ⟨fun _ => none, fun _ => false, [], 0⟩ with _ | stf
  · rw [hsl] at hrun
    exact absurd hrun (by simp)
  · rw [hsl] at hrun
    simp only [Option.map_some'] at hrun
    have hpair := Option.some_inj.1 hrun
    have hsa : stf.superA = sa := congrArg Prod.fst hpair
    obtain ⟨hcur, hlens, _, _, hsome⟩ :=
      saLoop_spec (retireve_genomes_names files) (registry_nodup files)
        files _ stf hsl hW hN hFnd (by simp) (fun n _ => rfl)
    intro n hn
    have hfilesne : files ≠ [] := by
      rintro rfl
      simp [retireve_genomes_names, retireveAux] at hn
    have hsn := hsome hfilesne n hn
    rcases hs : stf.superA n with _ | s
    · exact absurd hs hsn
    · refine ⟨s, by rw [← hsa]; exact hs, ?_⟩
      have hl := hlens n hn
      rw [hs, Option.getD_some] at hl
      rw [hl, hcur]
      show (0 : Nat) + totalWidth files = totalWidth files
      omega

/-- C6: the partition list produced by `create_super_alignment` is
contiguous and gapless: the first partition starts at 0, each
partition's end equals the next partition's start, and the last
partition's end equals the total super-alignment length (the sum of all
gene widths). -/
theorem super_alignment_partitions (files : List (FileName × List (Name × Sq)))
    (sa : Name → Option Sq) (parts : List (FileName × (Nat × Nat)))
    (hW : ∀ fa ∈ files, equalWidths fa.2)
    (hN : ∀ fa ∈ files, (fa.2.map Prod.fst).Nodup)
    (hFnd : (files.map Prod.fst).Nodup)
    (hrun : create_super_alignment files = some (sa, parts)) :
    (∀ p0, parts[0]? = some p0 → p0.2.1 = 0) ∧
      (∀ i pi pj, parts[i]? = some pi → parts[i + 1]? = some pj →
        pi.2.2 = pj.2.1) ∧
      (∀ pl, parts.getLast? = some pl → pl.2.2 = totalWidth files) := by
  rw [create_super_alignment] at hrun
  rcases hsl : saLoop (retireve_genomes_names files) files
      ⟨fun _ => none, fun _ => false, [], 0⟩ with _ | stf
  · rw [hsl] at hrun
    exact absurd hrun (by simp)
  · rw [hsl] at hrun
    simp only [Option.map_some'] at hrun
    have hpair := Option.some_inj.1 hrun
    have hparts : stf.parts = parts := congrArg Prod.snd hpair
    obtain ⟨_, _, hp, _, _⟩ :=
      saLoop_spec (retireve_genomes_names files) (registry_nodup files)
        files _ stf hsl hW hN hFnd (by simp) (fun n _ => rfl)
    have hparts' : parts = partsFrom 0 files := by
      rw [← hparts, hp]
      simp
    refine ⟨?_, ?_, ?_⟩
    · intro p0 h0
      rw [hparts'] at h0
      exact partsFrom_first 0 files p0 h0
    · intro i pi pj hi hj
      rw [hparts'] at hi hj
      exact partsFrom_chain 0 files i pi pj hi hj
    · intro pl hl
      rw [hparts'] at hl
      have := partsFrom_last 0 files pl hl
      rw [this]
      omega

/-- Witness for C5: on the two-gene scenario input, taxon `B` gets a
super-sequence of length `4 + 3 = 7`. -/
theorem super_alignment_lengths_witness :
    ∃ sa parts, create_super_alignment scenarioFiles = some (sa, parts) ∧
      ∃ s, sa "B".toList = some s ∧ s.length = totalWidth scenarioFiles := by
  rcases hrun : create_super_alignment scenarioFiles with _ | r
  · exfalso
    have hs : (create_super_alignment scenarioFiles).isSome = true := by decide
    rw [hrun] at hs
    exact Bool.false_ne_true hs
  · obtain ⟨sa, parts⟩ := r
    exact ⟨sa, parts, rfl,
      super_alignment_lengths scenarioFiles sa parts
        (by simp only [equalWidths]; decide) (by decide)
        (by decide) hrun "B".toList (by decide)⟩

/-- Witness for C6: on the two-gene scenario input, the produced
partition list is contiguous from 0 to 7. -/
theorem super_alignment_partitions_witness :
    ∃ sa parts, create_super_alignment scenarioFiles = some (sa, parts) ∧
      (∀ p0, parts[0]? = some p0 → p0.2.1 = 0) ∧
      (∀ i pi pj, parts[i]? = some pi → parts[i + 1]? = some pj →
        pi.2.2 = pj.2.1) ∧
      (∀ pl, parts.getLast? = some pl → pl.2.2 = totalWidth scenarioFiles) := by
  rcases hrun : create_super_alignment scenarioFiles with _ | r
  · exfalso
    have hs : (create_super_alignment scenarioFiles).isSome = true := by decide
    rw [hrun] at hs
    exact Bool.false_ne_true hs
  · obtain ⟨sa, parts⟩ := r
    exact ⟨sa, parts, rfl,
      super_alignment_partitions scenarioFiles sa parts
        (by simp only [equalWidths]; decide) (by decide)
        (by decide) hrun⟩

end SuperAlign

namespace SuperAlign

/- Lemmas about the fuel-driven Python string split. -/

theorem mem_of_isPrefixOf {l1 l2 : List Char} (h : l1.isPrefixOf l2 = true)
    {x : Char} (hx : x ∈ l1) : x ∈ l2 := by
  induction l1 generalizing l2 with
  | nil => simp at hx
  | cons a t ih =>
    cases l2 with
    | nil => simp [List.isPrefixOf] at h
    | cons b t2 =>
      simp only [List.isPrefixOf, Bool.and_eq_true, beq_iff_eq] at h
      rcases List.mem_cons.1 hx with h1 | h1
      · rw [h1, h.1]
        exact List.mem_cons_self b t2
      · exact List.mem_cons_of_mem b (ih h.2 h1)

theorem splitOnSepF_fuel (sep : List Char) :
    ∀ (f : Nat) (l : List Char) (f' : Nat), l.length ≤ f → l.length ≤ f' →
      splitOnSepF sep f l = splitOnSepF sep f' l := by
  intro f
  induction f with
  | zero =>
    intro l f' hf _
    have : l = [] := List.length_eq_zero.1 (Nat.le_zero.1 hf)
    subst this
    cases f' <;> rfl
  | succ f1 ih =>
    intro l f' hf hf'
    cases l with
    | nil => cases f' <;> rfl
    | cons c rest =>
      have hf'pos : 0 < f' := by
        simp only [List.length_cons] at hf'
        omega
      obtain ⟨f2, rfl⟩ : ∃ f2, f' = f2 + 1 := ⟨f' - 1, by omega⟩
      rw [splitOnSepF, splitOnSepF]
      by_cases hcond : sep ≠ [] ∧ sep.isPrefixOf (c :: rest) = true
      · rw [if_pos hcond, if_pos hcond]
        have hdrop : ((c :: rest).drop sep.length).length ≤ f1 := by
          have hsep : 1 ≤ sep.length := by
            rcases sep with _ | ⟨a, s⟩
            · exact absurd rfl hcond.1
            · simp
          simp only [List.length_drop, List.length_cons] at *
          omega
        have hdrop' : ((c :: rest).drop sep.length).length ≤ f2 := by
          have hsep : 1 ≤ sep.length := by
            rcases sep with _ | ⟨a, s⟩
            · exact absurd rfl hcond.1
            · simp
          simp only [List.length_drop, List.length_cons] at *
          omega
        rw [ih _ _ hdrop hdrop']
      · rw [if_neg hcond, if_neg hcond]
        have hr : rest.length ≤ f1 := by
          simp only [List.length_cons] at hf
          omega
        have hr' : rest.length ≤ f2 := by
          simp only [List.length_cons] at hf'
          omega
        rw [ih _ _ hr hr']

theorem splitOnSepF_no_occurrence (sep : List Char) (t : Char) (ht : t ∈ sep) :
    ∀ (f : Nat) (l : List Char), l.length ≤ f → t ∉ l →
      splitOnSepF sep f l = [l] := by
  intro f
  induction f with
  | zero =>
    intro l hf _
    have : l = [] := List.length_eq_zero.1 (Nat.le_zero.1 hf)
    subst this
    rfl
  | succ f1 ih =>
    intro l hf hl
    cases l with
    | nil => rfl
    | cons c rest =>
      rw [splitOnSepF]
      rw [if_neg (fun hcond => hl (mem_of_isPrefixOf hcond.2 ht))]
      have hr : splitOnSepF sep f1 rest = [rest] := by
        apply ih
        · simp only [List.length_cons] at hf
          omega
        · intro hmem
          exact hl (List.mem_cons_of_mem c hmem)
      rw [hr]

theorem splitOnSep_no_occurrence (sep : List Char) (t : Char) (ht : t ∈ sep)
    (l : List Char) (hl : t ∉ l) : splitOnSep sep l = [l] :=
  splitOnSepF_no_occurrence sep t ht l.length l (le_refl _) hl

end SuperAlign

namespace SuperAlign

theorem splitOnSepF_eq_append :
    ∀ (x : List Char) (f : Nat) (y : List Char),
    (x ++ " = ".toList ++ y).length ≤ f → '=' ∉ x →
    splitOnSepF " = ".toList f (x ++ " = ".toList ++ y) =
      x :: splitOnSepF " = ".toList y.length y := by
  intro x
  induction x with
  | nil =>
    intro f y hf hx
    simp only [List.nil_append] at hf ⊢
    have hlen : (" = ".toList ++ y).length = y.length + 3 := by simp
    obtain ⟨f1, rfl⟩ : ∃ f1, f = f1 + 1 := ⟨f - 1, by omega⟩
    have hcons : " = ".toList ++ y = ' ' :: ('=' :: (' ' :: y)) := rfl
    rw [hcons, splitOnSepF,
      if_pos (show (" = ".toList ≠ [] ∧
        " = ".toList.isPrefixOf (' ' :: ('=' :: (' ' :: y))) = true) from
        ⟨by simp, by simp [List.isPrefixOf]⟩)]
    have hdrop : (' ' :: ('=' :: (' ' :: y))).drop " = ".toList.length = y := rfl
    rw [hdrop, splitOnSepF_fuel " = ".toList f1 y y.length (by omega) (le_refl _)]
  | cons c x' ih =>
    intro f y hf hx
    have hcons : (c :: x') ++ " = ".toList ++ y =
        c :: (x' ++ " = ".toList ++ y) := by simp
    have hlen : ((c :: x') ++ " = ".toList ++ y).length =
        x'.length + y.length + 4 := by simp; omega
    obtain ⟨f1, rfl⟩ : ∃ f1, f = f1 + 1 := ⟨f - 1, by omega⟩
    rw [hcons, splitOnSepF]
    have hnot : ¬(" = ".toList ≠ [] ∧
        " = ".toList.isPrefixOf (c :: (x' ++ " = ".toList ++ y)) = true) := by
      rintro ⟨-, hpre⟩
      cases x' with
      | nil =>
        have hcons2 : ([] : List Char) ++ " = ".toList ++ y =
            ' ' :: ('=' :: (' ' :: y)) := rfl
        rw [hcons2] at hpre
        simp [List.isPrefixOf] at hpre
      | cons d x'' =>
        have hcons2 : (d :: x'') ++ " = ".toList ++ y =
            d :: (x'' ++ " = ".toList ++ y) := by simp
        rw [hcons2] at hpre
        simp only [List.isPrefixOf, Bool.and_eq_true, beq_iff_eq] at hpre
        apply hx
        rw [hpre.2.1]
        exact List.mem_cons_of_mem c (List.mem_cons_self d x'')
    rw [if_neg hnot]
    have hrec := ih f1 y (by simp only [List.length_append] at hf ⊢; simp at hf ⊢; omega)
      (fun hm => hx (List.mem_cons_of_mem c hm))
    rw [hrec]

theorem splitOnSepF_dash_append :
    ∀ (x : List Char) (f : Nat) (y : List Char),
    (x ++ '-' :: y).length ≤ f → '-' ∉ x →
    splitOnSepF ['-'] f (x ++ '-' :: y) = x :: splitOnSepF ['-'] y.length y := by
  intro x
  induction x with
  | nil =>
    intro f y hf hx
    simp only [List.nil_append, List.length_cons] at hf
    obtain ⟨f1, rfl⟩ : ∃ f1, f = f1 + 1 := ⟨f - 1, by omega⟩
    rw [List.nil_append, splitOnSepF,
      if_pos (show (['-'] ≠ [] ∧ ['-'].isPrefixOf ('-' :: y) = true) from
        ⟨by simp, by simp [List.isPrefixOf]⟩)]
    have hdrop : ('-' :: y).drop (['-'] : List Char).length = y := rfl
    rw [hdrop, splitOnSepF_fuel ['-'] f1 y y.length (by omega) (le_refl _)]
  | cons c x' ih =>
    intro f y hf hx
    have hcons : (c :: x') ++ '-' :: y = c :: (x' ++ '-' :: y) := by simp
    have hlen : ((c :: x') ++ '-' :: y).length = x'.length + y.length + 2 := by
      simp
      omega
    obtain ⟨f1, rfl⟩ : ∃ f1, f = f1 + 1 := ⟨f - 1, by omega⟩
    rw [hcons, splitOnSepF]
    have hnot : ¬((['-'] : List Char) ≠ [] ∧
        (['-'] : List Char).isPrefixOf (c :: (x' ++ '-' :: y)) = true) := by
      rintro ⟨-, hpre⟩
      simp only [List.isPrefixOf, Bool.and_eq_true, beq_iff_eq] at hpre
      apply hx
      rw [hpre.1]
      exact List.mem_cons_self c x'
    rw [if_neg hnot]
    have hrec := ih f1 y (by simp only [List.length_append] at hf ⊢; simp at hf ⊢; omega)
      (fun hm => hx (List.mem_cons_of_mem c hm))
    rw [hrec]

theorem splitOnSep_eq_append (x y : List Char) (hx : '=' ∉ x) :
    splitOnSep " = ".toList (x ++ " = ".toList ++ y) =
      x :: splitOnSep " = ".toList y :=
  splitOnSepF_eq_append x (x ++ " = ".toList ++ y).length y (le_refl _) hx

theorem splitOnSep_dash_append (x y : List Char) (hx : '-' ∉ x) :
    splitOnSep ['-'] (x ++ '-' :: y) = x :: splitOnSep ['-'] y :=
  splitOnSepF_dash_append x (x ++ '-' :: y).length y (le_refl _) hx

end SuperAlign

namespace SuperAlign

/- Decimal rendering and parsing round-trip. -/

theorem digitChar_facts : ∀ d < 10, (Nat.digitChar d).toNat - 48 = d ∧
    Nat.digitChar d ≠ '=' ∧ Nat.digitChar d ≠ '-' ∧
    (Nat.digitChar d).isWhitespace = false := by decide

theorem parseNat_append_one (xs : List Char) (c : Char) :
    parseNat (xs ++ [c]) = 10 * parseNat xs + (c.toNat - 48) := by
  unfold parseNat
  rw [List.foldl_append]
  rfl

theorem natDigitsRev_parse : ∀ (f n : Nat), n ≤ f →
    parseNat ((natDigitsRev f n).reverse) = n := by
  intro f
  induction f with
  | zero =>
    intro n hn
    obtain rfl : n = 0 := Nat.le_zero.1 hn
    rfl
  | succ f1 ih =>
    intro n hn
    by_cases h0 : n = 0
    · subst h0
      rw [natDigitsRev, if_pos rfl]
      rfl
    · have hlt : n / 10 < n := Nat.div_lt_self (Nat.pos_of_ne_zero h0)
        (by norm_num)
      rw [natDigitsRev, if_neg h0, List.reverse_cons, parseNat_append_one,
        ih (n / 10) (by omega), (digitChar_facts (n % 10) (by omega)).1]
      omega

end SuperAlign

namespace SuperAlign

theorem parseNat_natToChars (n : Nat) : parseNat (natToChars n) = n := by
  unfold natToChars
  by_cases h0 : n = 0
  · subst h0
    rw [if_pos rfl]
    rfl
  · rw [if_neg h0]
    exact natDigitsRev_parse n n (le_refl n)

theorem natDigitsRev_chars : ∀ (f n : Nat) (c : Char),
    c ∈ natDigitsRev f n → ∃ d, d < 10 ∧ c = Nat.digitChar d := by
  intro f
  induction f with
  | zero =>
    intro n c hc
    simp [natDigitsRev] at hc
  | succ f1 ih =>
    intro n c hc
    rw [natDigitsRev] at hc
    by_cases h0 : n = 0
    · rw [if_pos h0] at hc
      simp at hc
    · rw [if_neg h0] at hc
      rcases List.mem_cons.1 hc with h1 | h1
      · exact ⟨n % 10, by omega, h1⟩
      · exact ih _ c h1

theorem natToChars_chars (n : Nat) (c : Char) (hc : c ∈ natToChars n) :
    ∃ d, d < 10 ∧ c = Nat.digitChar d := by
  unfold natToChars at hc
  by_cases h0 : n = 0
  · rw [if_pos h0] at hc
    exact ⟨0, by omega, by simpa using hc⟩
  · rw [if_neg h0] at hc
    exact natDigitsRev_chars n n c (List.mem_reverse.1 hc)

theorem eq_not_mem_natToChars (n : Nat) : '=' ∉ natToChars n := by
  intro hc
  obtain ⟨d, hd, hcd⟩ := natToChars_chars n '=' hc
  exact (digitChar_facts d hd).2.1 hcd.symm

theorem dash_not_mem_natToChars (n : Nat) : '-' ∉ natToChars n := by
  intro hc
  obtain ⟨d, hd, hcd⟩ := natToChars_chars n '-' hc
  exact (digitChar_facts d hd).2.2.1 hcd.symm

theorem natToChars_ne_nil (n : Nat) : natToChars n ≠ [] := by
  unfold natToChars
  by_cases h0 : n = 0
  · rw [if_pos h0]
    simp
  · rw [if_neg h0]
    intro hrev
    have : natDigitsRev n n = [] := by
      have := congrArg List.reverse hrev
      simpa using this
    obtain ⟨f1, hf⟩ : ∃ f1, n = f1 + 1 :=
      ⟨n - 1, by omega⟩
    rw [hf, natDigitsRev, if_neg (by omega)] at this
    exact List.noConfusion this

/- The strip of a written partition line. -/

theorem dropWhile_ws_of_head (l : List Char)
    (hhead : ∀ c, l.head? = some c → c.isWhitespace = false) :
    l.dropWhile Char.isWhitespace = l := by
  cases l with
  | nil => rfl
  | cons c t =>
    rw [List.dropWhile_cons, if_neg]
    rw [hhead c rfl]
    simp

theorem stripChars_append_newline (l : List Char)
    (hhead : ∀ c, l.head? = some c → c.isWhitespace = false)
    (hlast : ∀ c, l.getLast? = some c → c.isWhitespace = false) :
    stripChars (l ++ ['\n']) = l := by
  unfold stripChars
  cases l with
  | nil => rfl
  | cons c0 t0 =>
    rw [dropWhile_ws_of_head ((c0 :: t0) ++ ['\n'])
      (by
        intro c hc
        simp only [List.cons_append, List.head?_cons, Option.some_inj] at hc
        exact hhead c (by rw [← hc]; rfl))]
    rw [List.reverse_append]
    have hrev : (['\n'] : List Char).reverse = ['\n'] := rfl
    rw [hrev]
    show ((('\n' :: (c0 :: t0).reverse).dropWhile Char.isWhitespace)).reverse = _
    rw [List.dropWhile_cons, if_pos (by decide)]
    rcases hr : (c0 :: t0).reverse with _ | ⟨d, tr⟩
    · exact absurd hr (by simp)
    · rw [dropWhile_ws_of_head (d :: tr)
        (by
          intro c hc
          simp only [List.head?_cons, Option.some_inj] at hc
          subst hc
          apply hlast
          rw [← List.head?_reverse, hr]
          rfl)]
      rw [← hr, List.reverse_reverse]

end SuperAlign

namespace SuperAlign

theorem mem_of_getLast?_eq {l : List Char} {c : Char}
    (h : l.getLast? = some c) : c ∈ l := by
  have hm : c ∈ l.getLast? := by rw [h]; rfl
  obtain ⟨hne, hceq⟩ := List.mem_getLast?_eq_getLast hm
  rw [hceq]
  exact List.getLast_mem hne

/-- C7: a partition `(start, end)` encoded into its `partitions.txt`
line by `create_super_alignment` and decoded back by the parser of
`remove_close_genomes` yields the original pair; the 1-based/0-based
conversion is exactly invertible.  The gene short name may be any string
not containing `'='` (file names never do; a short name containing
`'='` could make the `' = '`-split of the decoder pick the wrong
field). -/
theorem partition_line_round_trip (file : FileName) (s e : Nat)
    (hshort : '=' ∉ shortNameOf file) :
    (decodePartitionLine (encodePartitionLine file (s, e))).2 =
      ((s : Int), (e : Int)) := by
  have hline : encodePartitionLine file (s, e) =
      (("DNA, ".toList ++ shortNameOf file) ++ " = ".toList ++
        (natToChars (s + 1) ++ '-' :: natToChars e)) ++ ['\n'] := by
    unfold encodePartitionLine
    simp [List.append_assoc]
  have hhead : ∀ c, (("DNA, ".toList ++ shortNameOf file) ++ " = ".toList ++
      (natToChars (s + 1) ++ '-' :: natToChars e)).head? = some c →
      c.isWhitespace = false := by
    intro c hc
    have hD : (("DNA, ".toList ++ shortNameOf file) ++ " = ".toList ++
        (natToChars (s + 1) ++ '-' :: natToChars e)).head? = some 'D' := rfl
    rw [hD] at hc
    obtain rfl : 'D' = c := Option.some_inj.1 hc
    decide
  have hlast : ∀ c, (("DNA, ".toList ++ shortNameOf file) ++ " = ".toList ++
      (natToChars (s + 1) ++ '-' :: natToChars e)).getLast? = some c →
      c.isWhitespace = false := by
    intro c hc
    rw [List.getLast?_append_of_ne_nil _
        (by simp : (natToChars (s + 1) ++ '-' :: natToChars e) ≠ []),
      List.getLast?_append_of_ne_nil _
        (by simp : ('-' :: natToChars e) ≠ [])] at hc
    have hc2 : ('-' :: natToChars e).getLast? = (natToChars e).getLast? := by
      have : '-' :: natToChars e = ['-'] ++ natToChars e := rfl
      rw [this, List.getLast?_append_of_ne_nil _ (natToChars_ne_nil e)]
    rw [hc2] at hc
    obtain ⟨d, hd, hcd⟩ := natToChars_chars e c (mem_of_getLast?_eq hc)
    rw [hcd]
    exact (digitChar_facts d hd).2.2.2
  have hstrip : stripChars (encodePartitionLine file (s, e)) =
      ("DNA, ".toList ++ shortNameOf file) ++ " = ".toList ++
        (natToChars (s + 1) ++ '-' :: natToChars e) := by
    rw [hline]
    exact stripChars_append_newline _ hhead hlast
  have hxeq : '=' ∉ ("DNA, ".toList ++ shortNameOf file) := by
    intro hc
    rcases List.mem_append.1 hc with h | h
    · revert h
      decide
    · exact hshort h
  have hnums_no_eq : '=' ∉ (natToChars (s + 1) ++ '-' :: natToChars e) := by
    intro hc
    rcases List.mem_append.1 hc with h | h
    · exact eq_not_mem_natToChars _ h
    · rcases List.mem_cons.1 h with h1 | h1
      · exact absurd h1 (by decide)
      · exact eq_not_mem_natToChars _ h1
  have hsplit1 : splitOnSep " = ".toList
      (("DNA, ".toList ++ shortNameOf file) ++ " = ".toList ++
        (natToChars (s + 1) ++ '-' :: natToChars e)) =
      [("DNA, ".toList ++ shortNameOf file),
        (natToChars (s + 1) ++ '-' :: natToChars e)] := by
    rw [splitOnSep_eq_append _ _ hxeq,
      splitOnSep_no_occurrence " = ".toList '=' (by decide) _ hnums_no_eq]
  have hsplit2 : splitOnSep ['-'] (natToChars (s + 1) ++ '-' :: natToChars e) =
      [natToChars (s + 1), natToChars e] := by
    rw [splitOnSep_dash_append _ _ (dash_not_mem_natToChars _),
      splitOnSep_no_occurrence ['-'] '-' (by decide) _
        (dash_not_mem_natToChars _)]
  simp only [decodePartitionLine]
  rw [hstrip, hsplit1]
  have hlastD : ([("DNA, ".toList ++ shortNameOf file),
      (natToChars (s + 1) ++ '-' :: natToChars e)]).getLastD ([] : List Char) =
      (natToChars (s + 1) ++ '-' :: natToChars e) := by simp
  rw [hlastD, hsplit2]
  have hg0 : ([natToChars (s + 1), natToChars e]).getD 0 ([] : List Char) =
      natToChars (s + 1) := rfl
  have hg1 : ([natToChars (s + 1), natToChars e]).getD 1 ([] : List Char) =
      natToChars e := rfl
  rw [hg0, hg1, parseNat_natToChars, parseNat_natToChars]
  show (((s + 1 : Nat) : Int) - 1, ((e : Nat) : Int)) = ((s : Int), (e : Int))
  have : ((s + 1 : Nat) : Int) - 1 = (s : Int) := by push_cast; omega
  rw [this]

/-- Witness for C7: the partition `(4, 7)` of gene file
`genes/g1.fna.afa` round-trips through its textual line. -/
theorem partition_line_round_trip_witness :
    '=' ∉ shortNameOf "genes/g1.fna.afa".toList ∧
      (decodePartitionLine
        (encodePartitionLine "genes/g1.fna.afa".toList (4, 7))).2 =
        ((4 : Int), (7 : Int)) :=
  ⟨by decide, partition_line_round_trip "genes/g1.fna.afa".toList 4 7 (by decide)⟩

end SuperAlign
